import Mathlib

/-!
A verification development for the `lnwallet` package of the Colored-Coins
lightning channel engine.  The Go sources (`channel.go`, `colored.go`,
`wallet.go`, `interface.go`) are shallowly embedded: machine integers
(`int64`, `uint32`, `uint64`) become `Int`/`Nat`, Go `list.List` logs become
Lean `List`s, the `map[uint32]*list.Element` index maps become lookup by the
`Index` field (the code maintains the maps exactly in sync with the lists),
and in-place mutation through pointers becomes explicit state passing.
External collaborators (elkrem trees, secp256k1 key derivation, sha256, the
colored-coin encoding service, persistence) are modelled as parameters or
from the specification, as noted on each definition.
-/

namespace LndCC

/-- Entry types of the shared HTLC log (`updateType` in channel.go). -/
inductive UpdateType where
  | Add
  | Timeout
  | Settle
deriving DecidableEq, Repr

/-- `PaymentDescriptor` from channel.go.  Payment hashes and payloads are
modelled as `Nat` (the concrete bytes never influence control flow other than
through equality tests).  Amounts (`btcutil.Amount`, an `int64`) are `Int`. -/
structure PaymentDescriptor where
  rHash : Nat
  timeout : Nat
  amount : Int
  index : Nat
  parentIndex : Nat
  entryType : UpdateType
  addCommitHeightRemote : Nat
  addCommitHeightLocal : Nat
  removeCommitHeightRemote : Nat
  removeCommitHeightLocal : Nat
  isForwarded : Bool
  settled : Bool
deriving DecidableEq, Repr

/-- `commitment` from channel.go.  The raw transaction and signature bytes
are external to the state-machine claims and are not stored here; the
transaction construction itself is modelled separately (see `MsgTx` below). -/
structure Commitment where
  height : Nat
  ourMessageIndex : Nat
  theirMessageIndex : Nat
  ourBalance : Int
  theirBalance : Int
deriving DecidableEq, Repr

/-- `lnwire.CommitRevocation` (the fields used by channel.go).  The 32-byte
pre-image is a `Nat`; the all-zero pre-image is modelled as `0`. -/
structure CommitRevocation where
  revocation : Nat
  nextRevocationKey : Nat
  nextRevocationHash : Nat
deriving DecidableEq, Repr

/-- Channel status (`channelState` enum in channel.go). -/
inductive ChannelStatus where
  | pending
  | open
  | closing
  | closed
  | dispute
  | pendingPayment
deriving DecidableEq, Repr

/-- An outpoint (txid, output index). -/
structure OutPoint where
  hash : Nat
  index : Nat
deriving DecidableEq, Repr

/-- Modelled from the spec: the persisted `channeldb.OpenChannel` record
(spec section 3, "Channel configuration" and "Channel dynamic state"); the
channeldb package is not part of the provided sources.  Only the fields read
or written by channel.go are modelled.  The remote elkrem receiver is the
append-only record of verified counterparty pre-images. -/
structure OpenChannel where
  ourBalance : Int
  theirBalance : Int
  capacity : Int
  numUpdates : Nat
  ourCommitKey : Nat
  theirCommitKey : Nat
  theirCurrentRevocation : Nat
  theirCurrentRevocationHash : Nat
  remoteElkrem : List Nat
  ourDeliveryScript : List Nat
  theirDeliveryScript : List Nat
  fundingOutpoint : OutPoint
deriving DecidableEq, Repr

/-- Modelled from the spec: the external cryptographic collaborators
(sha256, the elkrem sender/receiver of spec section 4.1, and the revocation
key derivation of spec section 4.5); their code is outside the provided
sources.  Keys, hashes and pre-images are `Nat`s; the functions are
parameters because the state machine only ever compares their outputs. -/
structure Crypto where
  sha256 : Nat → Nat
  derivePriv : Nat → Nat → Nat
  toPub : Nat → Nat
  derivePub : Nat → Nat → Nat
  elkremConsistent : List Nat → Nat → Bool
  localElkremAt : Nat → Nat

/-- `MaxPendingPayments` from channel.go. -/
def MaxPendingPayments : Nat := 100

/-- `InitialRevocationWindow` from channel.go. -/
def InitialRevocationWindow : Nat := 4

/-- The funding `TxIn` of a transaction (witness data abstracted). -/
structure TxIn where
  prevHash : Nat
  prevIndex : Nat
deriving DecidableEq, Repr

/-- `LightningChannel` from channel.go (the state-machine fields; mutexes,
loggers and the wallet/notifier back-references carry no state relevant to
the claims).  The two HTLC logs are lists ordered as the Go `list.List`s;
the `ourLogIndex`/`theirLogIndex` maps are modelled by lookup on `index`. -/
structure LightningChannel where
  ourLogCounter : Nat
  theirLogCounter : Nat
  status : ChannelStatus
  currentHeight : Nat
  revocationWindowEdge : Nat
  usedRevocations : List CommitRevocation
  revocationWindow : List CommitRevocation
  remoteCommitChain : List Commitment
  localCommitChain : List Commitment
  channelState : OpenChannel
  ourUpdateLog : List PaymentDescriptor
  theirUpdateLog : List PaymentDescriptor
  fundingTxIn : TxIn
deriving DecidableEq, Repr

/-- `NewLightningChannel` from channel.go: both chains are seeded with the
same initial commitment at the persisted height and settled balances; the
status field keeps Go's zero value (`channelPending`). -/
def newLightningChannel (state : OpenChannel) : LightningChannel :=
  let initialCommitment : Commitment :=
    { height := state.numUpdates
      ourMessageIndex := 0
      theirMessageIndex := 0
      ourBalance := state.ourBalance
      theirBalance := state.theirBalance }
  { ourLogCounter := 0
    theirLogCounter := 0
    status := .pending
    currentHeight := state.numUpdates
    revocationWindowEdge := state.numUpdates
    usedRevocations := []
    revocationWindow := []
    remoteCommitChain := [initialCommitment]
    localCommitChain := [initialCommitment]
    channelState := state
    ourUpdateLog := []
    theirUpdateLog := []
    fundingTxIn := { prevHash := state.fundingOutpoint.hash
                     prevIndex := state.fundingOutpoint.index } }

/-- Lookup of a log entry by its `Index` field; models a read of the
`ourLogIndex`/`theirLogIndex` maps (which the code keeps exactly in sync
with the lists, keyed by `Index`). -/
def logLookup (log : List PaymentDescriptor) (i : Nat) : Option PaymentDescriptor :=
  log.find? (fun e => e.index == i)

/-- The commitment-addition height of an entry on the chain being built
(the `addHeight` pointer selection in `processAddEntry`). -/
def addHeightFor (remoteChain : Bool) (e : PaymentDescriptor) : Nat :=
  if remoteChain then e.addCommitHeightRemote else e.addCommitHeightLocal

/-- The removal height of an entry on the chain being built (the
`removeHeight` pointer selection in `processRemoveEntry`). -/
def removeHeightFor (remoteChain : Bool) (e : PaymentDescriptor) : Nat :=
  if remoteChain then e.removeCommitHeightRemote else e.removeCommitHeightLocal

/-- Write the commitment-addition height of the chain being built. -/
def setAddHeight (remoteChain : Bool) (h : Nat) (e : PaymentDescriptor) : PaymentDescriptor :=
  if remoteChain then { e with addCommitHeightRemote := h }
  else { e with addCommitHeightLocal := h }

/-- Write the removal height of the chain being built. -/
def setRemoveHeight (remoteChain : Bool) (h : Nat) (e : PaymentDescriptor) : PaymentDescriptor :=
  if remoteChain then { e with removeCommitHeightRemote := h }
  else { e with removeCommitHeightLocal := h }

/-- `processAddEntry` from channel.go.  The Go function mutates the entry
and the two balances through pointers; here it returns the updated entry
and balances. -/
def processAddEntry (htlc : PaymentDescriptor) (ourBalance theirBalance : Int)
    (nextHeight : Nat) (remoteChain isIncoming : Bool) :
    PaymentDescriptor × Int × Int :=
  if addHeightFor remoteChain htlc ≠ 0 then (htlc, ourBalance, theirBalance)
  else
    let balances :=
      if isIncoming then (ourBalance, theirBalance - htlc.amount)
      else (ourBalance - htlc.amount, theirBalance)
    (setAddHeight remoteChain nextHeight htlc, balances.1, balances.2)

/-- `processRemoveEntry` from channel.go.  The four-way switch on
(isIncoming, entry type) credits one side; an `Add` entry matches no case
(the switch falls through) but still has its removal height recorded. -/
def processRemoveEntry (htlc : PaymentDescriptor) (ourBalance theirBalance : Int)
    (nextHeight : Nat) (remoteChain isIncoming : Bool) :
    PaymentDescriptor × Int × Int :=
  if removeHeightFor remoteChain htlc ≠ 0 then (htlc, ourBalance, theirBalance)
  else
    let balances :=
      match isIncoming, htlc.entryType with
      | true, .Settle => (ourBalance + htlc.amount, theirBalance)
      | true, .Timeout => (ourBalance, theirBalance + htlc.amount)
      | false, .Settle => (ourBalance, theirBalance + htlc.amount)
      | false, .Timeout => (ourBalance + htlc.amount, theirBalance)
      | _, .Add => (ourBalance, theirBalance)
    (setRemoveHeight remoteChain nextHeight htlc, balances.1, balances.2)

/-- `fetchHTLCView` from channel.go: the candidate updates are the log
entries whose index lies below the respective view index. -/
def fetchHTLCView (ourLog theirLog : List PaymentDescriptor)
    (theirLogIndex ourLogIndex : Nat) :
    List PaymentDescriptor × List PaymentDescriptor :=
  (ourLog.filter (fun e => e.index < ourLogIndex),
   theirLog.filter (fun e => e.index < theirLogIndex))

/-- The skip set built in the first pass of `evaluateHTLCView`: for every
non-Add entry of a view, the `Index` of the parent entry found in the
opposite log's index map.  (In Go a missing parent would dereference nil.) -/
def skipSet (removes : List PaymentDescriptor) (oppositeLog : List PaymentDescriptor) :
    List Nat :=
  removes.filterMap (fun r => (logLookup oppositeLog r.parentIndex).map (·.index))

/-- First pass of `evaluateHTLCView` over one log: apply
`processRemoveEntry` to every active non-Add entry in log order, threading
the balances and recording the removal heights in the log. -/
def applyRemovesToLog (log : List PaymentDescriptor) (bound : Nat)
    (ourBalance theirBalance : Int) (nextHeight : Nat)
    (remoteChain isIncoming : Bool) : List PaymentDescriptor × Int × Int :=
  match log with
  | [] => ([], ourBalance, theirBalance)
  | e :: rest =>
    if e.index < bound ∧ e.entryType ≠ .Add then
      let r := processRemoveEntry e ourBalance theirBalance nextHeight remoteChain isIncoming
      let res := applyRemovesToLog rest bound r.2.1 r.2.2 nextHeight remoteChain isIncoming
      (r.1 :: res.1, res.2.1, res.2.2)
    else
      let res := applyRemovesToLog rest bound ourBalance theirBalance nextHeight
        remoteChain isIncoming
      (e :: res.1, res.2.1, res.2.2)

/-- Second pass of `evaluateHTLCView` over one log: apply `processAddEntry`
to every active Add entry not in the skip set, threading balances, recording
addition heights, and collecting the surviving (mutated) entries as the
filtered view for this log. -/
def applyAddsToLog (log : List PaymentDescriptor) (bound : Nat) (skip : List Nat)
    (ourBalance theirBalance : Int) (nextHeight : Nat)
    (remoteChain isIncoming : Bool) :
    List PaymentDescriptor × Int × Int × List PaymentDescriptor :=
  match log with
  | [] => ([], ourBalance, theirBalance, [])
  | e :: rest =>
    if e.index < bound ∧ e.entryType = .Add ∧ ¬ skip.contains e.index then
      let r := processAddEntry e ourBalance theirBalance nextHeight remoteChain isIncoming
      let res := applyAddsToLog rest bound skip r.2.1 r.2.2 nextHeight remoteChain isIncoming
      (r.1 :: res.1, res.2.1, res.2.2.1, r.1 :: res.2.2.2)
    else
      let res := applyAddsToLog rest bound skip ourBalance theirBalance nextHeight
        remoteChain isIncoming
      (e :: res.1, res.2.1, res.2.2.1, res.2.2.2)

/-- The result of `evaluateHTLCView`: the two logs with their commit heights
updated, the adjusted balances, and the filtered view (the surviving Add
entries of each log, in log order). -/
structure EvalOut where
  ourLog : List PaymentDescriptor
  theirLog : List PaymentDescriptor
  ourBalance : Int
  theirBalance : Int
  viewOur : List PaymentDescriptor
  viewTheir : List PaymentDescriptor
deriving DecidableEq, Repr

/-- `evaluateHTLCView` from channel.go.  Pass 1 walks the non-Add entries of
both views (ours first, then theirs), populating the skip sets from the
opposite log's index map and crediting balances; pass 2 walks the Add
entries (ours first, then theirs), skipping removed ones, debiting balances
and emitting the filtered view.  Go mutates the log entries through the view
pointers; here the passes rebuild the logs.  The skip sets only read the
immutable `Index`/`ParentIndex` fields, so computing them up front is
equivalent to Go's interleaved construction. -/
def evaluateHTLCView (ourLog theirLog : List PaymentDescriptor)
    (ourLogIndex theirLogIndex : Nat) (ourBalance theirBalance : Int)
    (nextHeight : Nat) (remoteChain : Bool) : EvalOut :=
  let view := fetchHTLCView ourLog theirLog theirLogIndex ourLogIndex
  let skipThem := skipSet (view.1.filter (fun e => e.entryType ≠ .Add)) theirLog
  let skipUs := skipSet (view.2.filter (fun e => e.entryType ≠ .Add)) ourLog
  let p1our := applyRemovesToLog ourLog ourLogIndex ourBalance theirBalance
    nextHeight remoteChain true
  let p1their := applyRemovesToLog theirLog theirLogIndex p1our.2.1 p1our.2.2
    nextHeight remoteChain false
  let p2our := applyAddsToLog p1our.1 ourLogIndex skipUs p1their.2.1 p1their.2.2
    nextHeight remoteChain false
  let p2their := applyAddsToLog p1their.1 theirLogIndex skipThem p2our.2.1 p2our.2.2.1
    nextHeight remoteChain true
  { ourLog := p2our.1
    theirLog := p2their.1
    ourBalance := p2their.2.1
    theirBalance := p2their.2.2.1
    viewOur := p2our.2.2.2
    viewTheir := p2their.2.2.2 }

/-- `fetchCommitmentView` from channel.go, restricted to the state-machine
content: seed the balances from the chain tip, evaluate the HTLC view at
`tip.height + 1`, and return the populated commitment together with the
evaluation result (updated logs and filtered view).  The transaction
construction (`createCommitTx`, `addHTLC`, `txsort`, `ColorifyTx`) consumes
the same balances and filtered view and is modelled separately; its failure
modes occur after the view evaluation and are handled by the callers'
external-success flags.  `none` models the nil-dereference panic of `tip()`
on an empty chain (the dead `tip() == nil` branch of the source is
unreachable for the same reason). -/
def fetchCommitmentView (lc : LightningChannel) (remoteChain : Bool)
    (ourLogIndex theirLogIndex : Nat) : Option (Commitment × EvalOut) :=
  let commitChain := if remoteChain then lc.remoteCommitChain else lc.localCommitChain
  match commitChain.getLast? with
  | none => none
  | some tip =>
    let ourBalance := tip.ourBalance
    let theirBalance := tip.theirBalance
    let nextHeight := tip.height + 1
    let ev := evaluateHTLCView lc.ourUpdateLog lc.theirUpdateLog
      ourLogIndex theirLogIndex ourBalance theirBalance nextHeight remoteChain
    some ({ height := nextHeight
            ourMessageIndex := ourLogIndex
            theirMessageIndex := theirLogIndex
            ourBalance := ev.ourBalance
            theirBalance := ev.theirBalance }, ev)

/-- The abstract error taxonomy (spec section 7); the comments give the
corresponding Go error values. -/
inductive ChanError where
  | noWindow            -- ErrNoWindow
  | chanClosing         -- ErrChanClosing
  | unknownPaymentHash  -- SettleHTLC: "invalid payment hash"
  | unknownLogEntry     -- ReceiveHTLCSettle: "non existant log entry"
  | invalidPreimage     -- ReceiveHTLCSettle: "invalid payment hash"
  | keyMismatch         -- "revocation key mismatch"
  | hashMismatch        -- "revocation hash mismatch"
  | elkremMismatch      -- RemoteElkrem.AddNext failure
  | sigInvalid          -- "invalid commitment signature" / parse failure
  | insufficientFunds   -- ErrInsufficientFunds
  | external            -- failures of external collaborators (signing, encoding, elkrem sender)
  | panicked            -- a Go nil-dereference / out-of-range panic
deriving DecidableEq, Repr

/-- Result of a state-machine operation: the operation's return value or the
error it surfaced.  Operations always also return the (possibly partially
mutated) channel. -/
inductive OpResult (α : Type) where
  | ok (a : α)
  | err (e : ChanError)
deriving DecidableEq, Repr

/-- `SignNextCommitment` from channel.go.  `extOk` stands for the success of
everything external that runs after the view evaluation (commit-transaction
construction, colored encoding, signing); those failures return with the
HTLC log heights already mutated but the chain, window and used set
untouched. -/
def signNextCommitment (lc : LightningChannel) (extOk : Bool) :
    LightningChannel × OpResult Nat :=
  if lc.revocationWindow.length = 0 ∨
      lc.usedRevocations.length = InitialRevocationWindow then
    (lc, .err .noWindow)
  else
    match lc.revocationWindow with
    | [] => (lc, .err .noWindow)
    | nextRevocation :: windowRest =>
      match fetchCommitmentView lc true lc.ourLogCounter lc.theirLogCounter with
      | none => (lc, .err .panicked)
      | some (newCommitView, ev) =>
        let lc1 := { lc with ourUpdateLog := ev.ourLog, theirUpdateLog := ev.theirLog }
        if extOk then
          ({ lc1 with
              remoteCommitChain := lc1.remoteCommitChain ++ [newCommitView]
              usedRevocations := lc1.usedRevocations ++ [nextRevocation]
              revocationWindow := windowRest }, .ok lc.theirLogCounter)
        else (lc1, .err .external)

/-- `ReceiveNewCommitment` from channel.go.  `elkOk` is the success of the
local elkrem sender lookup (before any mutation); `sigOk` is the success of
sighash computation, signature parsing and verification (after the view
evaluation has mutated the log heights). -/
def receiveNewCommitment (lc : LightningChannel) (elkOk sigOk : Bool)
    (ourLogIndex : Nat) : LightningChannel × OpResult Unit :=
  if ¬ elkOk then (lc, .err .external)
  else
    match fetchCommitmentView lc false ourLogIndex lc.theirLogCounter with
    | none => (lc, .err .panicked)
    | some (localCommitmentView, ev) =>
      let lc1 := { lc with ourUpdateLog := ev.ourLog, theirUpdateLog := ev.theirLog }
      if sigOk then
        ({ lc1 with localCommitChain := lc1.localCommitChain ++ [localCommitmentView] },
         .ok ())
      else (lc1, .err .sigInvalid)

/-- `RevokeCurrentCommitment` from channel.go.  `elk1`/`elk2` are the two
elkrem sender lookups; the second failure returns with the window edge
already incremented, exactly as in the source.  Persistence (`FullSync`) is
modelled as infallible (spec section 7: a persistence failure abandons the
in-memory channel).  `panicked` marks the states in which Go would
dereference nil (advancing the tail of a chain of length at most one). -/
def revokeCurrentCommitment (C : Crypto) (lc : LightningChannel)
    (elk1 elk2 : Bool) : LightningChannel × OpResult CommitRevocation :=
  if ¬ elk1 then (lc, .err .external)
  else
    let currentRevocation := C.localElkremAt lc.currentHeight
    let lc := { lc with revocationWindowEdge := lc.revocationWindowEdge + 1 }
    if ¬ elk2 then (lc, .err .external)
    else
      let revocationEdge := C.localElkremAt lc.revocationWindowEdge
      match lc.localCommitChain with
      | [] => (lc, .err .panicked)
      | _ :: rest =>
        let lc := { lc with localCommitChain := rest
                            currentHeight := lc.currentHeight + 1 }
        match rest.head? with
        | none => (lc, .err .panicked)
        | some tail =>
          let lc := { lc with channelState :=
            { lc.channelState with
                ourBalance := tail.ourBalance
                theirBalance := tail.theirBalance
                numUpdates := lc.channelState.numUpdates + 1 } }
          (lc, .ok { revocation := currentRevocation
                     nextRevocationKey :=
                       C.derivePub lc.channelState.theirCommitKey revocationEdge
                     nextRevocationHash := C.sha256 revocationEdge })

/-- The forwarding scan of `ReceiveRevocation` (channel.go lines 976-1003):
walk the remote update log, emitting and marking the entries that are now
locked in on both chains and not yet forwarded. -/
def forwardScan (log : List PaymentDescriptor) (remoteChainTail localChainTail : Nat) :
    List PaymentDescriptor × List PaymentDescriptor :=
  match log with
  | [] => ([], [])
  | htlc :: rest =>
    let res := forwardScan rest remoteChainTail localChainTail
    if htlc.isForwarded then (htlc :: res.1, res.2)
    else if htlc.entryType = .Add ∧
        (htlc.addCommitHeightRemote = 0 ∨ htlc.addCommitHeightLocal = 0) then
      (htlc :: res.1, res.2)
    else if htlc.entryType = .Add ∧
        remoteChainTail ≥ htlc.addCommitHeightRemote ∧
        localChainTail ≥ htlc.addCommitHeightLocal then
      let h := { htlc with isForwarded := true }
      (h :: res.1, h :: res.2)
    else if htlc.entryType ≠ .Add ∧
        remoteChainTail ≥ htlc.removeCommitHeightRemote ∧
        localChainTail ≥ htlc.removeCommitHeightLocal then
      let h := { htlc with isForwarded := true }
      (h :: res.1, h :: res.2)
    else (htlc :: res.1, res.2)

/-- Remove the (unique) entry with index `i` from a log; models
`logB.Remove(indexB[parentIndex])` together with the matching map deletion.
If the index map held no such entry Go would dereference nil; the model
leaves the log unchanged in that case (the compaction theorems assume the
parent exists). -/
def removeFirstByIndex (log : List PaymentDescriptor) (i : Nat) :
    List PaymentDescriptor :=
  match log with
  | [] => []
  | e :: rest => if e.index = i then rest else e :: removeFirstByIndex rest i

/-- The inner `compactLog` closure of `compactLogs` (channel.go): walk
`logA`, skipping Add entries and entries not yet removed from both chains;
once both chain tails have reached an entry's removal heights, evict the
entry from `logA` and its parent Add from `logB` (and both from the index
maps, which this model represents by the lists themselves). -/
def compactLogOnce (logA logB : List PaymentDescriptor)
    (localChainTail remoteChainTail : Nat) :
    List PaymentDescriptor × List PaymentDescriptor :=
  match logA with
  | [] => ([], logB)
  | e :: rest =>
    if e.entryType = .Add then
      let r := compactLogOnce rest logB localChainTail remoteChainTail
      (e :: r.1, r.2)
    else if e.removeCommitHeightRemote = 0 ∨ e.removeCommitHeightLocal = 0 then
      let r := compactLogOnce rest logB localChainTail remoteChainTail
      (e :: r.1, r.2)
    else if remoteChainTail ≥ e.removeCommitHeightRemote ∧
        localChainTail ≥ e.removeCommitHeightLocal then
      compactLogOnce rest (removeFirstByIndex logB e.parentIndex)
        localChainTail remoteChainTail
    else
      let r := compactLogOnce rest logB localChainTail remoteChainTail
      (e :: r.1, r.2)

/-- `compactLogs` from channel.go: compact our log against theirs, then the
(already pruned) their log against (already pruned) ours. -/
def compactLogs (ourLog theirLog : List PaymentDescriptor)
    (localChainTail remoteChainTail : Nat) :
    List PaymentDescriptor × List PaymentDescriptor :=
  let first := compactLogOnce ourLog theirLog localChainTail remoteChainTail
  let second := compactLogOnce first.2 first.1 localChainTail remoteChainTail
  (second.2, second.1)

/-- `ReceiveRevocation` from channel.go.  A zero pre-image only extends the
revocation window.  Otherwise the pre-image is fed to the remote elkrem
receiver (mutating it) before the key and hash checks, the current
revocation key/hash are rotated from the head of `usedRevocations`, the
remote chain tail is advanced, forwardable HTLCs are collected and the logs
compacted.  `SyncRevocation` is modelled as infallible (as for `FullSync`).
`panicked` marks states where Go would panic (empty `usedRevocations` or a
chain too short to advance). -/
def receiveRevocation (C : Crypto) (lc : LightningChannel)
    (revMsg : CommitRevocation) :
    LightningChannel × OpResult (List PaymentDescriptor) :=
  if revMsg.revocation = 0 then
    ({ lc with revocationWindow := lc.revocationWindow ++ [revMsg] }, .ok [])
  else
    let pendingRevocation := revMsg.revocation
    if ¬ C.elkremConsistent lc.channelState.remoteElkrem pendingRevocation then
      (lc, .err .elkremMismatch)
    else
      let lc1 := { lc with channelState :=
        { lc.channelState with
            remoteElkrem := lc.channelState.remoteElkrem ++ [pendingRevocation] } }
      if C.toPub (C.derivePriv lc1.channelState.ourCommitKey pendingRevocation) ≠
          lc1.channelState.theirCurrentRevocation then
        (lc1, .err .keyMismatch)
      else if lc1.channelState.theirCurrentRevocationHash ≠ 0 ∧
          C.sha256 pendingRevocation ≠ lc1.channelState.theirCurrentRevocationHash then
        (lc1, .err .hashMismatch)
      else
        match lc1.usedRevocations with
        | [] => (lc1, .err .panicked)
        | nextRevocation :: usedRest =>
          let lc2 := { lc1 with
            channelState := { lc1.channelState with
              theirCurrentRevocation := nextRevocation.nextRevocationKey
              theirCurrentRevocationHash := nextRevocation.nextRevocationHash }
            usedRevocations := usedRest
            revocationWindow := lc1.revocationWindow ++ [revMsg] }
          match lc2.remoteCommitChain with
          | [] => (lc2, .err .panicked)
          | _ :: remoteRest =>
            let lc3 := { lc2 with remoteCommitChain := remoteRest }
            match remoteRest.head?, lc3.localCommitChain.head? with
            | some remoteTail, some localTail =>
              let scan := forwardScan lc3.theirUpdateLog remoteTail.height localTail.height
              let compacted := compactLogs lc3.ourUpdateLog scan.1
                localTail.height remoteTail.height
              ({ lc3 with ourUpdateLog := compacted.1, theirUpdateLog := compacted.2 },
               .ok scan.2)
            | _, _ => (lc3, .err .panicked)

/-- `ExtendRevocationWindow` from channel.go: derive the next window edge
revocation (a failure of the elkrem sender lookup leaves the state
untouched) and increment the edge. -/
def extendRevocationWindow (C : Crypto) (lc : LightningChannel) (elkOk : Bool) :
    LightningChannel × OpResult CommitRevocation :=
  if ¬ elkOk then (lc, .err .external)
  else
    let nextHeight := lc.revocationWindowEdge + 1
    let revocation := C.localElkremAt nextHeight
    ({ lc with revocationWindowEdge := lc.revocationWindowEdge + 1 },
     .ok { revocation := 0
           nextRevocationKey := C.derivePub lc.channelState.theirCommitKey revocation
           nextRevocationHash := C.sha256 revocation })

/-- `lnwire.HTLCAddRequest` (the fields read by AddHTLC/ReceiveHTLC). -/
structure HTLCAddRequest where
  redemptionHash : Nat
  expiry : Nat
  amount : Int
deriving DecidableEq, Repr

/-- A fresh Add entry as built by `AddHTLC`/`ReceiveHTLC` (all other fields
take Go zero values). -/
def freshAdd (req : HTLCAddRequest) (idx : Nat) : PaymentDescriptor :=
  { rHash := req.redemptionHash
    timeout := req.expiry
    amount := req.amount
    index := idx
    parentIndex := 0
    entryType := .Add
    addCommitHeightRemote := 0
    addCommitHeightLocal := 0
    removeCommitHeightRemote := 0
    removeCommitHeightLocal := 0
    isForwarded := false
    settled := false }

/-- `AddHTLC` from channel.go. -/
def addHTLC (lc : LightningChannel) (req : HTLCAddRequest) :
    LightningChannel × Nat :=
  ({ lc with ourUpdateLog := lc.ourUpdateLog ++ [freshAdd req lc.ourLogCounter]
             ourLogCounter := lc.ourLogCounter + 1 }, lc.ourLogCounter)

/-- `ReceiveHTLC` from channel.go. -/
def receiveHTLC (lc : LightningChannel) (req : HTLCAddRequest) :
    LightningChannel × Nat :=
  ({ lc with theirUpdateLog := lc.theirUpdateLog ++ [freshAdd req lc.theirLogCounter]
             theirLogCounter := lc.theirLogCounter + 1 }, lc.theirLogCounter)

/-- The search loop of `SettleHTLC`: find the first un-settled Add entry
with the given payment hash, mark it settled in place, and return the
updated log together with the matched entry. -/
def settleFirst (log : List PaymentDescriptor) (paymentHash : Nat) :
    Option (List PaymentDescriptor × PaymentDescriptor) :=
  match log with
  | [] => none
  | e :: rest =>
    if e.entryType = .Add ∧ ¬ e.settled ∧ e.rHash = paymentHash then
      some (({ e with settled := true }) :: rest, { e with settled := true })
    else
      match settleFirst rest paymentHash with
      | none => none
      | some (l, t) => some (e :: l, t)

/-- `SettleHTLC` from channel.go: settle the first matching un-settled Add
of the remote log, append the corresponding Settle entry to our log, and
return the parent's log index. -/
def settleHTLC (C : Crypto) (lc : LightningChannel) (preimage : Nat) :
    LightningChannel × OpResult Nat :=
  let paymentHash := C.sha256 preimage
  match settleFirst lc.theirUpdateLog paymentHash with
  | none => (lc, .err .unknownPaymentHash)
  | some (theirLog, target) =>
    let pd : PaymentDescriptor :=
      { rHash := 0
        timeout := 0
        amount := target.amount
        index := lc.ourLogCounter
        parentIndex := target.index
        entryType := .Settle
        addCommitHeightRemote := 0
        addCommitHeightLocal := 0
        removeCommitHeightRemote := 0
        removeCommitHeightLocal := 0
        isForwarded := false
        settled := false }
    ({ lc with theirUpdateLog := theirLog
               ourUpdateLog := lc.ourUpdateLog ++ [pd]
               ourLogCounter := lc.ourLogCounter + 1 }, .ok target.index)

/-- `ReceiveHTLCSettle` from channel.go. -/
def receiveHTLCSettle (C : Crypto) (lc : LightningChannel) (preimage : Nat)
    (logIndex : Nat) : LightningChannel × OpResult Unit :=
  let paymentHash := C.sha256 preimage
  match logLookup lc.ourUpdateLog logIndex with
  | none => (lc, .err .unknownLogEntry)
  | some htlc =>
    if htlc.rHash ≠ paymentHash then (lc, .err .invalidPreimage)
    else
      let pd : PaymentDescriptor :=
        { rHash := 0
          timeout := 0
          amount := htlc.amount
          index := lc.theirLogCounter
          parentIndex := htlc.index
          entryType := .Settle
          addCommitHeightRemote := 0
          addCommitHeightLocal := 0
          removeCommitHeightRemote := 0
          removeCommitHeightLocal := 0
          isForwarded := false
          settled := false }
      ({ lc with theirUpdateLog := lc.theirUpdateLog ++ [pd]
                 theirLogCounter := lc.theirLogCounter + 1 }, .ok ())

/-- ColoredCoin transfer instruction (`CcInstruction` in colored.go). -/
structure CcInstruction where
  skipFlag : Bool
  rangeFlag : Bool
  percent : Bool
  output : Nat
  amount : Int
deriving DecidableEq, Repr

/-- An output script.  Regular pkScripts are byte lists; the OP_RETURN
script wrapping the colored-coin payload carries the instruction list
directly (the byte-level encoding is performed by an external service,
`EncodeCcInstructions`, whose output the channel code never inspects). -/
inductive Script where
  | bytes (bs : List Nat)
  | opReturn (insts : List CcInstruction)
deriving DecidableEq, Repr

/-- A transaction output (`wire.TxOut`). -/
structure TxOut where
  value : Int
  pkScript : Script
deriving DecidableEq, Repr

/-- A transaction (`wire.MsgTx`; locktime and witness data abstracted). -/
structure MsgTx where
  version : Nat
  txIns : List TxIn
  txOuts : List TxOut
deriving DecidableEq, Repr

/-- `dustAmount` from colored.go. -/
def dustAmount : Int := 546

/-- The output loop of `ColorifyTx`: walk the outputs with their positions,
hijacking each output's value into a transfer instruction and replacing the
actual value by a dust amount (15 dust for the funding transaction). -/
def colorifyOuts (outs : List TxOut) (i : Nat) (isFunding : Bool) :
    List CcInstruction × List TxOut :=
  match outs with
  | [] => ([], [])
  | o :: rest =>
    let res := colorifyOuts rest (i + 1) isFunding
    ({ skipFlag := false, rangeFlag := false, percent := false
       output := i, amount := o.value } :: res.1,
     (if isFunding then { value := dustAmount * 15, pkScript := o.pkScript }
      else { value := dustAmount, pkScript := o.pkScript }) :: res.2)

/-- `ColorifyTx` from colored.go: keep the version and inputs, re-encode the
output values as colored-coin instructions carried in a final zero-value
OP_RETURN output, and pay each original script a dust amount. -/
def ColorifyTx (tx : MsgTx) (isFunding : Bool) : MsgTx :=
  let res := colorifyOuts tx.txOuts 0 isFunding
  { version := tx.version
    txIns := tx.txIns
    txOuts := res.2 ++ [{ value := 0, pkScript := .opReturn res.1 }] }

/-- Lexicographic comparison of byte lists (the `bytes.Compare` order used
by txsort for output scripts). -/
def bytesLexLe (a b : List Nat) : Bool :=
  match a, b with
  | [], _ => true
  | _ :: _, [] => false
  | x :: xs, y :: ys => if x < y then true else if y < x then false else bytesLexLe xs ys

/-- BIP69 output order used by `txsort.InPlaceSort`: by amount ascending,
then by script lexicographically.  Close and commitment transactions are
sorted before colorification, so only byte scripts are ever compared. -/
def txOutLe (a b : TxOut) : Bool :=
  if a.value < b.value then true
  else if b.value < a.value then false
  else
    match a.pkScript, b.pkScript with
    | .bytes x, .bytes y => bytesLexLe x y
    | _, _ => true

/-- BIP69 input order used by `txsort.InPlaceSort`: by previous txid, then
by previous output index. -/
def txInLe (a b : TxIn) : Bool :=
  if a.prevHash < b.prevHash then true
  else if b.prevHash < a.prevHash then false
  else a.prevIndex ≤ b.prevIndex

/-- Insertion step for the canonical sort. -/
def insertBy (le : α → α → Bool) (x : α) : List α → List α
  | [] => [x]
  | y :: ys => if le x y then x :: y :: ys else y :: insertBy le x ys

/-- Canonical (BIP69) sort, modelling `txsort.InPlaceSort`'s order. -/
def sortBy (le : α → α → Bool) : List α → List α
  | [] => []
  | x :: xs => insertBy le x (sortBy le xs)

/-- `txsort.InPlaceSort` applied to a transaction. -/
def txsortInPlaceSort (tx : MsgTx) : MsgTx :=
  { tx with txIns := sortBy txInLe tx.txIns, txOuts := sortBy txOutLe tx.txOuts }

/-- `createCooperativeCloseTx` from channel.go: one output per party with a
non-zero settled balance paying that party's delivery script, canonically
sorted, then colorified (the disabled fee branch is omitted as in the
source; `ColorifyTx`'s only failure mode is the external encoder, on which
the source calls `log.Fatal`). -/
def createCooperativeCloseTx (fundingTxIn : TxIn) (ourBalance theirBalance : Int)
    (ourDeliveryScript theirDeliveryScript : List Nat) (initiator : Bool) : MsgTx :=
  let closeTx : MsgTx := { version := 1, txIns := [fundingTxIn], txOuts := [] }
  let closeTx :=
    if ourBalance ≠ 0 then
      { closeTx with txOuts := closeTx.txOuts ++
          [{ value := ourBalance, pkScript := .bytes ourDeliveryScript }] }
    else closeTx
  let closeTx :=
    if theirBalance ≠ 0 then
      { closeTx with txOuts := closeTx.txOuts ++
          [{ value := theirBalance, pkScript := .bytes theirDeliveryScript }] }
    else closeTx
  ColorifyTx (txsortInPlaceSort closeTx) false

/-- `InitCooperativeClose` from channel.go: refuse when already
closing/closed, otherwise transition to closing, build the close
transaction and sign it (`signOk` stands for the external signer; its
failure still leaves the status at closing).  The model returns the
transaction that is signed (signature bytes and txid abstracted). -/
def initCooperativeClose (lc : LightningChannel) (signOk : Bool) :
    LightningChannel × OpResult MsgTx :=
  if lc.status = .closing ∨ lc.status = .closed then (lc, .err .chanClosing)
  else
    let lc := { lc with status := .closing }
    let closeTx := createCooperativeCloseTx lc.fundingTxIn
      lc.channelState.ourBalance lc.channelState.theirBalance
      lc.channelState.ourDeliveryScript lc.channelState.theirDeliveryScript true
    if signOk then (lc, .ok closeTx) else (lc, .err .external)

/-- `CompleteCooperativeClose` from channel.go: refuse when already
closing/closed, otherwise transition to closed, build the same transaction
as responder and sign/verify it (`extOk` covers the signer and script
engine). -/
def completeCooperativeClose (lc : LightningChannel) (extOk : Bool) :
    LightningChannel × OpResult MsgTx :=
  if lc.status = .closing ∨ lc.status = .closed then (lc, .err .chanClosing)
  else
    let lc := { lc with status := .closed }
    let closeTx := createCooperativeCloseTx lc.fundingTxIn
      lc.channelState.ourBalance lc.channelState.theirBalance
      lc.channelState.ourDeliveryScript lc.channelState.theirDeliveryScript false
    if extOk then (lc, .ok closeTx) else (lc, .err .external)

/-- One public state-machine operation, with the outcomes of the external
collaborators (elkrem sender, signer, encoder) carried as booleans and the
wire inputs as data. -/
inductive ChanOp where
  | signNext (extOk : Bool)
  | receiveNew (elkOk sigOk : Bool) (ourLogIndex : Nat)
  | revoke (elk1 elk2 : Bool)
  | receiveRev (msg : CommitRevocation)
  | extendWindow (elkOk : Bool)
  | add (req : HTLCAddRequest)
  | receive (req : HTLCAddRequest)
  | settle (preimage : Nat)
  | receiveSettle (preimage : Nat) (logIndex : Nat)
  | initClose (signOk : Bool)
  | completeClose (extOk : Bool)
deriving DecidableEq, Repr

/-- Apply one public operation to the channel, keeping the resulting state
(whether or not the operation succeeded). -/
def applyOp (C : Crypto) (lc : LightningChannel) : ChanOp → LightningChannel
  | .signNext extOk => (signNextCommitment lc extOk).1
  | .receiveNew elkOk sigOk ourLogIndex =>
    (receiveNewCommitment lc elkOk sigOk ourLogIndex).1
  | .revoke elk1 elk2 => (revokeCurrentCommitment C lc elk1 elk2).1
  | .receiveRev msg => (receiveRevocation C lc msg).1
  | .extendWindow elkOk => (extendRevocationWindow C lc elkOk).1
  | .add req => (addHTLC lc req).1
  | .receive req => (receiveHTLC lc req).1
  | .settle preimage => (settleHTLC C lc preimage).1
  | .receiveSettle preimage logIndex => (receiveHTLCSettle C lc preimage logIndex).1
  | .initClose signOk => (initCooperativeClose lc signOk).1
  | .completeClose extOk => (completeCooperativeClose lc extOk).1

/-- Run a sequence of public operations. -/
def runOps (C : Crypto) (lc : LightningChannel) (ops : List ChanOp) :
    LightningChannel :=
  ops.foldl (applyOp C) lc

/-- Height of the tip (most recently appended commitment) of a chain; 0 on
an empty chain, where the Go accessor would panic. -/
def tipHeight (chain : List Commitment) : Nat :=
  (chain.getLast?.map Commitment.height).getD 0

/-- Height of the tail (lowest unrevoked commitment) of a chain. -/
def tailHeight (chain : List Commitment) : Nat :=
  (chain.head?.map Commitment.height).getD 0

/-- `lndcc.TxoData`: the colored-coin color data of a transaction output. -/
structure TxoData where
  assetId : String
  value : Int
deriving DecidableEq, Repr

/-- `lnwallet.Utxo` (interface.go): an unspent output together with its
colored-coin color data. -/
structure Utxo where
  value : Int
  hash : Nat
  index : Nat
  colorData : TxoData
deriving DecidableEq, Repr

/-- The selection loop of `selectInputs` (wallet.go): while the selected
asset value is below the requested amount, consume the next coin, counting
only coins whose color data matches the configured asset id; running out of
coins yields `ErrInsufficientFunds`.  Returns the selected asset value and
the selected outpoints. -/
def selectLoop (amt : Int) (assetId : String) (coins : List Utxo)
    (satSelected : Int) (selectedUtxos : List OutPoint) :
    Option (Int × List OutPoint) :=
  match coins with
  | [] => if satSelected < amt then none else some (satSelected, selectedUtxos)
  | coin :: rest =>
    if satSelected < amt then
      if coin.colorData.assetId = assetId then
        selectLoop amt assetId rest (satSelected + coin.colorData.value)
          (selectedUtxos ++ [{ hash := coin.hash, index := coin.index }])
      else
        selectLoop amt assetId rest satSelected selectedUtxos
    else some (satSelected, selectedUtxos)

/-- `selectInputs` from wallet.go; `none` models `ErrInsufficientFunds`. -/
def selectInputs (amt : Int) (coins : List Utxo) (assetId : String) :
    Option (Int × List OutPoint) :=
  selectLoop amt assetId coins 0 []

/-- `coinSelect` from wallet.go: select inputs for the amount (fee handling
is disabled in the source) and return the selected outpoints and the change
amount. -/
def coinSelect (feeRate : Nat) (amt : Int) (coins : List Utxo)
    (assetId : String) : Option (List OutPoint × Int) :=
  match selectInputs amt coins assetId with
  | none => none
  | some (totalTokens, selectedUtxos) => some (selectedUtxos, totalTokens - amt)

/-! ### Generic helper lemmas -/

/-- Sum of the `Amount` fields of a list of log entries. -/
def sumAmounts (l : List PaymentDescriptor) : Int :=
  (l.map (·.amount)).sum

theorem setAddHeight_amount (b : Bool) (h : Nat) (e : PaymentDescriptor) :
    (setAddHeight b h e).amount = e.amount := by
  cases b <;> simp [setAddHeight]

theorem setAddHeight_addHeightFor (b : Bool) (h : Nat) (e : PaymentDescriptor) :
    addHeightFor b (setAddHeight b h e) = h := by
  cases b <;> simp [setAddHeight, addHeightFor]

theorem setRemoveHeight_removeHeightFor (b : Bool) (h : Nat) (e : PaymentDescriptor) :
    removeHeightFor b (setRemoveHeight b h e) = h := by
  cases b <;> simp [setRemoveHeight, removeHeightFor]

/-! ### C6: first-commit height recording -/

/-- C6: when a commitment view is evaluated at `nextHeight` for a given
chain, `processAddEntry` (resp. `processRemoveEntry`) sets the entry's
add-height (resp. remove-height) for that chain to `nextHeight` only if the
field is currently zero; a non-zero field leaves the entry and both balances
completely unchanged, so the balance adjustment is never applied twice. -/
theorem processEntry_height_set_once (htlc : PaymentDescriptor)
    (ourBalance theirBalance : Int) (nextHeight : Nat) (remoteChain isIncoming : Bool) :
    (addHeightFor remoteChain htlc ≠ 0 →
      processAddEntry htlc ourBalance theirBalance nextHeight remoteChain isIncoming =
        (htlc, ourBalance, theirBalance)) ∧
    (addHeightFor remoteChain htlc = 0 →
      addHeightFor remoteChain
        (processAddEntry htlc ourBalance theirBalance nextHeight remoteChain isIncoming).1 =
        nextHeight) ∧
    (removeHeightFor remoteChain htlc ≠ 0 →
      processRemoveEntry htlc ourBalance theirBalance nextHeight remoteChain isIncoming =
        (htlc, ourBalance, theirBalance)) ∧
    (removeHeightFor remoteChain htlc = 0 →
      removeHeightFor remoteChain
        (processRemoveEntry htlc ourBalance theirBalance nextHeight remoteChain isIncoming).1 =
        nextHeight) := by
  refine ⟨fun h => ?_, fun h => ?_, fun h => ?_, fun h => ?_⟩
  · simp [processAddEntry, h]
  · simp [processAddEntry, h, setAddHeight_addHeightFor]
  · simp [processRemoveEntry, h]
  · simp [processRemoveEntry, h, setRemoveHeight_removeHeightFor]

/-- A descriptor already committed on the remote chain but not yet removed. -/
def pdCommittedW : PaymentDescriptor :=
  { rHash := 9, timeout := 20, amount := 50, index := 0, parentIndex := 0
    entryType := .Add
    addCommitHeightRemote := 3, addCommitHeightLocal := 0
    removeCommitHeightRemote := 0, removeCommitHeightLocal := 0
    isForwarded := false, settled := false }

/-- A descriptor not yet committed on the remote chain whose removal is
already recorded there. -/
def pdFreshW : PaymentDescriptor :=
  { rHash := 9, timeout := 20, amount := 50, index := 1, parentIndex := 0
    entryType := .Settle
    addCommitHeightRemote := 0, addCommitHeightLocal := 0
    removeCommitHeightRemote := 2, removeCommitHeightLocal := 0
    isForwarded := false, settled := false }

theorem processEntry_height_set_once_witness :
    (processAddEntry pdCommittedW 10 5 7 true false = (pdCommittedW, 10, 5)) ∧
    (addHeightFor true (processAddEntry pdFreshW 10 5 7 true false).1 = 7) ∧
    (processRemoveEntry pdFreshW 10 5 7 true true = (pdFreshW, 10, 5)) ∧
    (removeHeightFor true (processRemoveEntry pdCommittedW 10 5 7 true true).1 = 7) :=
  ⟨(processEntry_height_set_once pdCommittedW 10 5 7 true false).1 (by decide),
   (processEntry_height_set_once pdFreshW 10 5 7 true false).2.1 (by decide),
   (processEntry_height_set_once pdFreshW 10 5 7 true true).2.2.1 (by decide),
   (processEntry_height_set_once pdCommittedW 10 5 7 true true).2.2.2 (by decide)⟩

/-- Characterisation of a successful `fetchCommitmentView`: the chain has a
tip, the evaluation runs at the tip balances and `tip.height + 1`, and the
returned commitment records the evaluated balances and the view bounds. -/
theorem fetchCommitmentView_some {lc : LightningChannel} {σ : Bool} {bo bt : Nat}
    {cv : Commitment} {ev : EvalOut}
    (h : fetchCommitmentView lc σ bo bt = some (cv, ev)) :
    ∃ tip, (if σ then lc.remoteCommitChain else lc.localCommitChain).getLast? = some tip ∧
      ev = evaluateHTLCView lc.ourUpdateLog lc.theirUpdateLog bo bt
        tip.ourBalance tip.theirBalance (tip.height + 1) σ ∧
      cv = { height := tip.height + 1, ourMessageIndex := bo, theirMessageIndex := bt,
             ourBalance := ev.ourBalance, theirBalance := ev.theirBalance } := by
  rcases ht : (if σ then lc.remoteCommitChain else lc.localCommitChain).getLast? with _ | tip
  · simp [fetchCommitmentView, ht] at h
  · refine ⟨tip, rfl, ?_⟩
    simp only [fetchCommitmentView, ht] at h
    obtain ⟨h1, h2⟩ := Prod.mk.injEq .. ▸ Option.some.inj h
    exact ⟨h2.symm, by rw [← h1, h2]⟩

/-! ### C3: SignNextCommitment precondition and postcondition -/

/-- C3: `SignNextCommitment` returns the NoRevocationWindow error exactly
when the revocation window is empty or `usedRevocations` already holds
`InitialRevocationWindow` entries, and in that case no state is modified.
When the precondition holds and signing succeeds, the head of the window is
popped, a commitment at height `remote tip + 1` covering our log up to
`ourLogCounter` and theirs up to `theirLogCounter` is appended to the remote
chain, the popped revocation is pushed onto `usedRevocations`, and
`theirLogCounter` is returned. -/
theorem signNextCommitment_spec (lc : LightningChannel) (extOk : Bool) :
    ((signNextCommitment lc extOk).2 = .err .noWindow ↔
      (lc.revocationWindow = [] ∨ lc.usedRevocations.length = InitialRevocationWindow)) ∧
    ((lc.revocationWindow = [] ∨ lc.usedRevocations.length = InitialRevocationWindow) →
      signNextCommitment lc extOk = (lc, .err .noWindow)) ∧
    (∀ w ws cv ev,
      lc.revocationWindow = w :: ws →
      lc.usedRevocations.length ≠ InitialRevocationWindow →
      fetchCommitmentView lc true lc.ourLogCounter lc.theirLogCounter = some (cv, ev) →
      signNextCommitment lc true =
        ({ lc with
            ourUpdateLog := ev.ourLog
            theirUpdateLog := ev.theirLog
            remoteCommitChain := lc.remoteCommitChain ++ [cv]
            usedRevocations := lc.usedRevocations ++ [w]
            revocationWindow := ws }, .ok lc.theirLogCounter) ∧
      cv.height = tipHeight lc.remoteCommitChain + 1 ∧
      cv.ourMessageIndex = lc.ourLogCounter ∧
      cv.theirMessageIndex = lc.theirLogCounter) := by
  constructor
  · by_cases hpre : lc.revocationWindow.length = 0 ∨
        lc.usedRevocations.length = InitialRevocationWindow
    · constructor
      · intro _
        rcases hpre with h | h
        · exact Or.inl (List.length_eq_zero.mp h)
        · exact Or.inr h
      · intro _
        simp only [signNextCommitment, if_pos hpre]
    · have hiff : ¬ (lc.revocationWindow = [] ∨
          lc.usedRevocations.length = InitialRevocationWindow) := by
        intro h
        rcases h with h | h
        · exact hpre (Or.inl (by simp [h]))
        · exact hpre (Or.inr h)
      simp only [signNextCommitment, if_neg hpre]
      constructor
      · intro hres
        exfalso
        rcases hw : lc.revocationWindow with _ | ⟨w, ws⟩
        · exact hpre (Or.inl (by simp [hw]))
        · rw [hw] at hres
          rcases hf : fetchCommitmentView lc true lc.ourLogCounter lc.theirLogCounter with
            _ | ⟨cv, ev⟩
          · rw [hf] at hres; simp at hres
          · rw [hf] at hres
            by_cases he : extOk = true <;> simp [he] at hres
      · intro h; exact absurd h hiff
  constructor
  · intro hpre
    have hpre' : lc.revocationWindow.length = 0 ∨
        lc.usedRevocations.length = InitialRevocationWindow := by
      rcases hpre with h | h
      · exact Or.inl (by simp [h])
      · exact Or.inr h
    simp only [signNextCommitment, if_pos hpre']
  · intro w ws cv ev hw hused hf
    have hpre : ¬ (lc.revocationWindow.length = 0 ∨
        lc.usedRevocations.length = InitialRevocationWindow) := by
      intro h
      rcases h with h | h
      · rw [hw] at h; simp at h
      · exact hused h
    have hmain : signNextCommitment lc true =
        ({ lc with
            ourUpdateLog := ev.ourLog
            theirUpdateLog := ev.theirLog
            remoteCommitChain := lc.remoteCommitChain ++ [cv]
            usedRevocations := lc.usedRevocations ++ [w]
            revocationWindow := ws }, .ok lc.theirLogCounter) := by
      simp [signNextCommitment, hw, hf, hused]
    obtain ⟨tip, htip, -, hcv⟩ := fetchCommitmentView_some hf
    rw [if_pos rfl] at htip
    refine ⟨hmain, ?_, ?_, ?_⟩
    · rw [hcv, tipHeight, htip]
      simp
    · rw [hcv]
    · rw [hcv]

/-- A small concrete settled channel state used by several witnesses. -/
def stW : OpenChannel :=
  { ourBalance := 100, theirBalance := 0, capacity := 100, numUpdates := 0
    ourCommitKey := 1, theirCommitKey := 2
    theirCurrentRevocation := 3, theirCurrentRevocationHash := 0
    remoteElkrem := [], ourDeliveryScript := [1], theirDeliveryScript := [2]
    fundingOutpoint := { hash := 5, index := 0 } }

/-- A fresh channel over `stW` holding one revocation in its window. -/
def lcSignW : LightningChannel :=
  { newLightningChannel stW with
      revocationWindow := [{ revocation := 0, nextRevocationKey := 7, nextRevocationHash := 8 }] }

theorem signNextCommitment_spec_witness :
    signNextCommitment (newLightningChannel stW) true =
      (newLightningChannel stW, .err .noWindow) ∧
    signNextCommitment lcSignW true =
      ({ lcSignW with
          remoteCommitChain := lcSignW.remoteCommitChain ++
            [{ height := 1, ourMessageIndex := 0, theirMessageIndex := 0,
               ourBalance := 100, theirBalance := 0 }]
          usedRevocations := [{ revocation := 0, nextRevocationKey := 7, nextRevocationHash := 8 }]
          revocationWindow := [] }, .ok 0) := by
  constructor
  · exact (signNextCommitment_spec (newLightningChannel stW) true).2.1 (Or.inl (by decide))
  · have h := (signNextCommitment_spec lcSignW true).2.2
      { revocation := 0, nextRevocationKey := 7, nextRevocationHash := 8 } []
      { height := 1, ourMessageIndex := 0, theirMessageIndex := 0,
        ourBalance := 100, theirBalance := 0 }
      { ourLog := [], theirLog := [], ourBalance := 100, theirBalance := 0,
        viewOur := [], viewTheir := [] }
      (by decide) (by decide) (by decide)
    exact h.1.trans (by decide)

/-! ### C10: colorified transaction shape -/

theorem colorifyOuts_snd (outs : List TxOut) (i : Nat) :
    (colorifyOuts outs i false).2 =
      outs.map (fun o => { value := dustAmount, pkScript := o.pkScript }) := by
  induction outs generalizing i with
  | nil => simp [colorifyOuts]
  | cons o rest ih => simp [colorifyOuts, ih]

theorem colorifyOuts_fst (outs : List TxOut) (i : Nat) :
    (colorifyOuts outs i false).1 =
      (List.enumFrom i outs).map
        (fun p => { skipFlag := false, rangeFlag := false, percent := false
                    output := p.1, amount := p.2.value }) := by
  induction outs generalizing i with
  | nil => simp [colorifyOuts]
  | cons o rest ih => simp [colorifyOuts, ih, List.enumFrom]

/-- C10: `ColorifyTx` with `isFunding = false` keeps the version and the
inputs in order, pays each original script exactly the dust amount in the
original order, and appends a single zero-value OP_RETURN output encoding
the original output values as colored-coin instructions; consequently every
output value of the result is either dust or zero, never a channel
balance. -/
theorem colorifyTx_shape (tx : MsgTx) :
    (ColorifyTx tx false).version = tx.version ∧
    (ColorifyTx tx false).txIns = tx.txIns ∧
    (ColorifyTx tx false).txOuts =
      tx.txOuts.map (fun o => { value := dustAmount, pkScript := o.pkScript }) ++
        [{ value := 0
           pkScript := .opReturn (tx.txOuts.enum.map
             (fun p => { skipFlag := false, rangeFlag := false, percent := false
                         output := p.1, amount := p.2.value })) }] ∧
    ((ColorifyTx tx false).txOuts.all
      (fun o => o.value == dustAmount || o.value == 0)) = true := by
  have h3 : (ColorifyTx tx false).txOuts =
      tx.txOuts.map (fun o => { value := dustAmount, pkScript := o.pkScript }) ++
        [{ value := 0
           pkScript := .opReturn (tx.txOuts.enum.map
             (fun p => { skipFlag := false, rangeFlag := false, percent := false
                         output := p.1, amount := p.2.value })) }] := by
    simp [ColorifyTx, colorifyOuts_snd, colorifyOuts_fst, List.enum]
  refine ⟨rfl, rfl, h3, ?_⟩
  rw [h3]
  simp [List.all_append, List.all_map, Function.comp]

/-! ### C8: coin selection -/

/-- The asset-filtered value of a coin list: the sum of the `ColorData.Value`
of the coins whose `ColorData.AssetId` matches the configured asset id. -/
def assetSum (assetId : String) (coins : List Utxo) : Int :=
  ((coins.filter (fun c => c.colorData.assetId == assetId)).map
    (fun c => c.colorData.value)).sum

theorem assetSum_nonneg (assetId : String) (coins : List Utxo)
    (hnn : ∀ c ∈ coins, 0 ≤ c.colorData.value) : 0 ≤ assetSum assetId coins := by
  refine List.sum_nonneg ?_
  intro x hx
  obtain ⟨c, hc, rfl⟩ := List.mem_map.mp hx
  exact hnn c (List.mem_of_mem_filter hc)

theorem selectLoop_none_iff (amt : Int) (assetId : String) (coins : List Utxo)
    (sat : Int) (acc : List OutPoint)
    (hnn : ∀ c ∈ coins, 0 ≤ c.colorData.value) :
    (selectLoop amt assetId coins sat acc = none ↔ sat + assetSum assetId coins < amt) := by
  induction coins generalizing sat acc with
  | nil =>
    by_cases h : sat < amt <;> simp [selectLoop, assetSum, h]
  | cons c rest ih =>
    have hnn' : ∀ x ∈ rest, 0 ≤ x.colorData.value := fun x hx => hnn x (by simp [hx])
    by_cases h : sat < amt
    · by_cases hm : c.colorData.assetId = assetId
      · rw [show selectLoop amt assetId (c :: rest) sat acc =
            selectLoop amt assetId rest (sat + c.colorData.value)
              (acc ++ [{ hash := c.hash, index := c.index }]) by
            simp [selectLoop, h, hm]]
        rw [ih _ _ hnn']
        have : assetSum assetId (c :: rest) = c.colorData.value + assetSum assetId rest := by
          simp [assetSum, hm]
        rw [this]; constructor <;> (intro; omega)
      · rw [show selectLoop amt assetId (c :: rest) sat acc =
            selectLoop amt assetId rest sat acc by simp [selectLoop, h, hm]]
        rw [ih _ _ hnn']
        have : assetSum assetId (c :: rest) = assetSum assetId rest := by
          simp [assetSum, hm]
        rw [this]
    · have hsome : selectLoop amt assetId (c :: rest) sat acc = some (sat, acc) := by
        simp [selectLoop, h]
      rw [hsome]
      have h0 : 0 ≤ assetSum assetId (c :: rest) := assetSum_nonneg _ _ hnn
      constructor
      · intro hc; exact absurd hc (by simp)
      · intro hc; omega

theorem selectLoop_some (amt : Int) (assetId : String) (coins : List Utxo)
    (sat : Int) (acc : List OutPoint) (s : Int) (us : List OutPoint)
    (h : selectLoop amt assetId coins sat acc = some (s, us)) :
    ∃ n, n ≤ coins.length ∧
      s = sat + assetSum assetId (coins.take n) ∧
      amt ≤ s ∧
      (∀ m, m < n → sat + assetSum assetId (coins.take m) < amt) ∧
      us = acc ++ ((coins.take n).filter (fun c => c.colorData.assetId == assetId)).map
        (fun c => { hash := c.hash, index := c.index }) := by
  induction coins generalizing sat acc with
  | nil =>
    by_cases hlt : sat < amt
    · simp [selectLoop, hlt] at h
    · simp [selectLoop, hlt] at h
      refine ⟨0, by simp, by simp [assetSum, h.1.symm], by omega, by omega, by simp [h.2]⟩
  | cons c rest ih =>
    by_cases hlt : sat < amt
    · by_cases hm : c.colorData.assetId = assetId
      · rw [show selectLoop amt assetId (c :: rest) sat acc =
            selectLoop amt assetId rest (sat + c.colorData.value)
              (acc ++ [{ hash := c.hash, index := c.index }]) by
            simp [selectLoop, hlt, hm]] at h
        obtain ⟨n, hn, hs, hamt, hmin, hus⟩ := ih _ _ h
        refine ⟨n + 1, by simpa using hn, ?_, hamt, ?_, ?_⟩
        · rw [hs]
          have : assetSum assetId (c :: rest.take n) =
              c.colorData.value + assetSum assetId (rest.take n) := by
            simp [assetSum, hm]
          simp [List.take, this]; omega
        · intro m hm'
          match m with
          | 0 => simpa [assetSum] using hlt
          | m' + 1 =>
            have := hmin m' (by omega)
            have heq : assetSum assetId ((c :: rest).take (m' + 1)) =
                c.colorData.value + assetSum assetId (rest.take m') := by
              simp [List.take, assetSum, hm]
            rw [heq]; omega
        · rw [hus]
          simp [List.take, hm]
      · rw [show selectLoop amt assetId (c :: rest) sat acc =
            selectLoop amt assetId rest sat acc by simp [selectLoop, hlt, hm]] at h
        obtain ⟨n, hn, hs, hamt, hmin, hus⟩ := ih _ _ h
        refine ⟨n + 1, by simpa using hn, ?_, hamt, ?_, ?_⟩
        · rw [hs]
          have : assetSum assetId (c :: rest.take n) = assetSum assetId (rest.take n) := by
            simp [assetSum, hm]
          simp [List.take, this]
        · intro m hm'
          match m with
          | 0 => simpa [assetSum] using hlt
          | m' + 1 =>
            have := hmin m' (by omega)
            have heq : assetSum assetId ((c :: rest).take (m' + 1)) =
                assetSum assetId (rest.take m') := by
              simp [List.take, assetSum, hm]
            rw [heq]; omega
        · rw [hus]
          simp [List.take, hm]
    · simp [selectLoop, hlt] at h
      refine ⟨0, by simp, by simp [assetSum, h.1.symm], by omega, by omega, by simp [h.2]⟩

/-- C8: `selectInputs` fails with InsufficientFunds exactly when the
asset-filtered value of the whole coin list is below the requested amount;
otherwise it consumes the minimal prefix of the coin list whose
asset-filtered value reaches the amount, returning the matching outpoints of
that prefix and its asset value, and `coinSelect` returns that value minus
the requested amount as change. -/
theorem selectInputs_spec (amt : Int) (coins : List Utxo) (assetId : String)
    (hnn : ∀ c ∈ coins, 0 ≤ c.colorData.value) :
    (selectInputs amt coins assetId = none ↔ assetSum assetId coins < amt) ∧
    (∀ s us, selectInputs amt coins assetId = some (s, us) →
      ∃ n, n ≤ coins.length ∧
        s = assetSum assetId (coins.take n) ∧
        amt ≤ s ∧
        (∀ m, m < n → assetSum assetId (coins.take m) < amt) ∧
        us = ((coins.take n).filter (fun c => c.colorData.assetId == assetId)).map
          (fun c => { hash := c.hash, index := c.index })) ∧
    (∀ feeRate, coinSelect feeRate amt coins assetId =
      (selectInputs amt coins assetId).map (fun p => (p.2, p.1 - amt))) := by
  refine ⟨?_, ?_, ?_⟩
  · have := selectLoop_none_iff amt assetId coins 0 [] hnn
    simpa [selectInputs] using this
  · intro s us h
    obtain ⟨n, hn, hs, hamt, hmin, hus⟩ := selectLoop_some amt assetId coins 0 [] s us h
    exact ⟨n, hn, by simpa using hs, hamt, fun m hm => by simpa using hmin m hm,
      by simpa using hus⟩
  · intro feeRate
    unfold coinSelect
    cases h : selectInputs amt coins assetId with
    | none => rfl
    | some p => cases p; rfl

/-- Concrete coins for the coin-selection witness: two coins of asset `a`
(values 40 and 30) around one coin of another asset. -/
def coinsW : List Utxo :=
  [{ value := 0, hash := 11, index := 0, colorData := { assetId := "a", value := 40 } },
   { value := 0, hash := 12, index := 1, colorData := { assetId := "b", value := 100 } },
   { value := 0, hash := 13, index := 0, colorData := { assetId := "a", value := 30 } }]

theorem selectInputs_spec_witness :
    selectInputs 200 coinsW "a" = none ∧
    coinSelect 1 60 coinsW "a" =
      some ([{ hash := 11, index := 0 }, { hash := 13, index := 0 }], 10) := by
  constructor
  · exact (selectInputs_spec 200 coinsW "a" (by decide)).1.mpr (by decide)
  · exact ((selectInputs_spec 60 coinsW "a" (by decide)).2.2 1).trans (by decide)

/-! ### C2: revocation window budget -/

/-- A chain whose commitment heights increase contiguously from `h`. -/
def contigFrom : Nat → List Commitment → Prop
  | _, [] => True
  | h, c :: rest => c.height = h ∧ contigFrom (h + 1) rest

theorem tailHeight_cons (c : Commitment) (l : List Commitment) :
    tailHeight (c :: l) = c.height := by
  simp [tailHeight]

theorem tipHeight_cons_cons (x y : Commitment) (l : List Commitment) :
    tipHeight (x :: y :: l) = tipHeight (y :: l) := by
  simp [tipHeight, List.getLast?_cons_cons]

theorem contigFrom_append {h0 : Nat} {l : List Commitment} (c : Commitment)
    (hl : contigFrom h0 l) (hne : l ≠ []) (hc : c.height = tipHeight l + 1) :
    contigFrom h0 (l ++ [c]) := by
  induction l generalizing h0 with
  | nil => exact absurd rfl hne
  | cons x rest ih =>
    obtain ⟨hx, hrest⟩ := hl
    cases rest with
    | nil =>
      refine ⟨hx, ?_, trivial⟩
      simp [tipHeight] at hc
      omega
    | cons y t =>
      refine ⟨hx, ?_⟩
      exact ih hrest (by simp) (by rwa [tipHeight_cons_cons] at hc)

theorem contigFrom_tip {h0 : Nat} {l : List Commitment}
    (hc : contigFrom h0 l) (hne : l ≠ []) :
    tipHeight l + 1 = h0 + l.length := by
  induction l generalizing h0 with
  | nil => exact absurd rfl hne
  | cons x rest ih =>
    obtain ⟨hx, hrest⟩ := hc
    cases rest with
    | nil => simp [tipHeight, hx]
    | cons y t =>
      rw [tipHeight_cons_cons]
      have := ih hrest (by simp)
      simp only [List.length_cons] at *
      omega

/-- The inductive invariant behind the window-budget claim: the used set is
bounded by the initial window, the remote chain is one longer than the used
set, and the remote chain heights are contiguous from its tail. -/
def windowInv (lc : LightningChannel) : Prop :=
  lc.usedRevocations.length ≤ InitialRevocationWindow ∧
  lc.remoteCommitChain.length = lc.usedRevocations.length + 1 ∧
  contigFrom (tailHeight lc.remoteCommitChain) lc.remoteCommitChain

theorem windowInv_of_frame {lc lc' : LightningChannel}
    (hu : lc'.usedRevocations = lc.usedRevocations)
    (hr : lc'.remoteCommitChain = lc.remoteCommitChain)
    (h : windowInv lc) : windowInv lc' := by
  unfold windowInv at *
  rw [hu, hr]
  exact h

theorem receiveRevocation_cases (C : Crypto) (lc : LightningChannel)
    (msg : CommitRevocation) :
    ((receiveRevocation C lc msg).1.usedRevocations = lc.usedRevocations ∧
     (receiveRevocation C lc msg).1.remoteCommitChain = lc.remoteCommitChain) ∨
    (lc.usedRevocations ≠ [] ∧
     (receiveRevocation C lc msg).1.usedRevocations = lc.usedRevocations.tail ∧
     ((lc.remoteCommitChain = [] ∧
       (receiveRevocation C lc msg).1.remoteCommitChain = lc.remoteCommitChain) ∨
      (receiveRevocation C lc msg).1.remoteCommitChain = lc.remoteCommitChain.tail)) := by
  unfold receiveRevocation
  dsimp only
  split
  · exact Or.inl ⟨rfl, rfl⟩
  split
  · exact Or.inl ⟨rfl, rfl⟩
  split
  · exact Or.inl ⟨rfl, rfl⟩
  split
  · exact Or.inl ⟨rfl, rfl⟩
  split
  · exact Or.inl ⟨rfl, rfl⟩
  next nextRevocation usedRest hused =>
    refine Or.inr ⟨by simp [hused], ?_⟩
    split
    next hrc => exact ⟨by simp [hused], Or.inl ⟨hrc, by simp [hrc]⟩⟩
    next c crest hrc =>
      refine ⟨?_, Or.inr ?_⟩ <;>
        (split <;> simp [hused, hrc])

theorem windowInv_step (C : Crypto) (lc : LightningChannel) (op : ChanOp)
    (h : windowInv lc) : windowInv (applyOp C lc op) := by
  obtain ⟨hle, hlen, hcontig⟩ := h
  cases op with
  | signNext extOk =>
    show windowInv (signNextCommitment lc extOk).1
    unfold signNextCommitment
    split
    · exact ⟨hle, hlen, hcontig⟩
    next hpre =>
      split
      · exact ⟨hle, hlen, hcontig⟩
      next w ws hw =>
        split
        · exact ⟨hle, hlen, hcontig⟩
        next cv ev hf =>
          dsimp only
          split
          · -- success: window popped, chain extended, revocation pushed
            have hne : lc.remoteCommitChain ≠ [] := by
              intro hnil
              rw [hnil] at hlen
              simp at hlen
            obtain ⟨tip, htip, -, hcv⟩ := fetchCommitmentView_some hf
            rw [if_pos rfl] at htip
            have hh : cv.height = tipHeight lc.remoteCommitChain + 1 := by
              rw [hcv, tipHeight, htip]
              simp
            have hne4 : lc.usedRevocations.length ≠ InitialRevocationWindow := by
              intro hcon
              exact hpre (Or.inr hcon)
            refine ⟨?_, ?_, ?_⟩
            · simp only [List.length_append, List.length_cons, List.length_nil]
              unfold InitialRevocationWindow at *
              omega
            · simp [hlen]
            · have htl : tailHeight (lc.remoteCommitChain ++ [cv]) =
                  tailHeight lc.remoteCommitChain := by
                cases hc : lc.remoteCommitChain with
                | nil => exact absurd hc hne
                | cons a t => simp [tailHeight]
              show contigFrom (tailHeight (lc.remoteCommitChain ++ [cv]))
                (lc.remoteCommitChain ++ [cv])
              rw [htl]
              exact contigFrom_append cv hcontig hne hh
          · exact ⟨hle, hlen, hcontig⟩
  | receiveNew elkOk sigOk ourLogIndex =>
    show windowInv (receiveNewCommitment lc elkOk sigOk ourLogIndex).1
    unfold receiveNewCommitment
    split
    · exact ⟨hle, hlen, hcontig⟩
    · split
      · exact ⟨hle, hlen, hcontig⟩
      · dsimp only
        split <;> exact ⟨hle, hlen, hcontig⟩
  | revoke elk1 elk2 =>
    show windowInv (revokeCurrentCommitment C lc elk1 elk2).1
    unfold revokeCurrentCommitment
    split
    · exact ⟨hle, hlen, hcontig⟩
    split
    · exact ⟨hle, hlen, hcontig⟩
    dsimp only
    split
    · exact ⟨hle, hlen, hcontig⟩
    split <;> exact ⟨hle, hlen, hcontig⟩
  | receiveRev msg =>
    show windowInv (receiveRevocation C lc msg).1
    rcases receiveRevocation_cases C lc msg with ⟨hu, hr⟩ | ⟨hne, hu, hr⟩
    · exact windowInv_of_frame hu hr ⟨hle, hlen, hcontig⟩
    · rcases hused : lc.usedRevocations with _ | ⟨u, us⟩
      · exact absurd hused hne
      rcases hr with ⟨hnil, -⟩ | hr
      · rw [hnil, hused] at hlen
        simp at hlen
      rcases hchain : lc.remoteCommitChain with _ | ⟨c, crest⟩
      · rw [hchain, hused] at hlen
        simp at hlen
      rw [hused] at hu
      rw [hchain] at hr
      refine ⟨?_, ?_, ?_⟩
      · rw [hu]
        rw [hused] at hle
        simp at hle ⊢
        omega
      · rw [hu, hr]
        rw [hused, hchain] at hlen
        simp at hlen ⊢
        omega
      · rw [hr]
        rw [hchain] at hcontig
        obtain ⟨-, hrest⟩ := hcontig
        simp only [List.tail_cons]
        cases crest with
        | nil => trivial
        | cons y t =>
          obtain ⟨hy, ht⟩ := hrest
          rw [tailHeight_cons, hy]
          exact ⟨hy, ht⟩
  | extendWindow elkOk =>
    show windowInv (extendRevocationWindow C lc elkOk).1
    unfold extendRevocationWindow
    split <;> exact ⟨hle, hlen, hcontig⟩
  | add req => exact ⟨hle, hlen, hcontig⟩
  | receive req => exact ⟨hle, hlen, hcontig⟩
  | settle preimage =>
    show windowInv (settleHTLC C lc preimage).1
    unfold settleHTLC
    dsimp only
    split
    · exact ⟨hle, hlen, hcontig⟩
    · exact ⟨hle, hlen, hcontig⟩
  | receiveSettle preimage logIndex =>
    show windowInv (receiveHTLCSettle C lc preimage logIndex).1
    unfold receiveHTLCSettle
    dsimp only
    split
    · exact ⟨hle, hlen, hcontig⟩
    · split <;> exact ⟨hle, hlen, hcontig⟩
  | initClose signOk =>
    show windowInv (initCooperativeClose lc signOk).1
    unfold initCooperativeClose
    split
    · exact ⟨hle, hlen, hcontig⟩
    · split <;> exact ⟨hle, hlen, hcontig⟩
  | completeClose extOk =>
    show windowInv (completeCooperativeClose lc extOk).1
    unfold completeCooperativeClose
    split
    · exact ⟨hle, hlen, hcontig⟩
    · split <;> exact ⟨hle, hlen, hcontig⟩

theorem windowInv_runOps (C : Crypto) (lc : LightningChannel) (ops : List ChanOp)
    (h : windowInv lc) : windowInv (runOps C lc ops) := by
  induction ops generalizing lc with
  | nil => exact h
  | cons op rest ih => exact ih _ (windowInv_step C lc op h)

/-- C2 (amended): in every state reachable from a freshly constructed
channel by public state-machine operations, the used-revocations set holds
at most `InitialRevocationWindow` entries, and its length equals the number
of remote-chain commitments not yet revoked (remote tip height minus remote
tail height).  The combined bound on `usedRevocations` plus
`revocationWindow` claimed by the specification does not hold (see the
counterexample): window extensions received via `ReceiveRevocation` grow
the window without bound. -/
theorem usedRevocations_budget (C : Crypto) (st : OpenChannel) (ops : List ChanOp) :
    (runOps C (newLightningChannel st) ops).usedRevocations.length ≤
      InitialRevocationWindow ∧
    tipHeight (runOps C (newLightningChannel st) ops).remoteCommitChain =
      tailHeight (runOps C (newLightningChannel st) ops).remoteCommitChain +
        (runOps C (newLightningChannel st) ops).usedRevocations.length := by
  have hinit : windowInv (newLightningChannel st) := by
    refine ⟨by simp [newLightningChannel, InitialRevocationWindow], by simp [newLightningChannel], ?_⟩
    simp [newLightningChannel, tailHeight, contigFrom]
  obtain ⟨hle, hlen, hcontig⟩ := windowInv_runOps C (newLightningChannel st) ops hinit
  refine ⟨hle, ?_⟩
  have hne : (runOps C (newLightningChannel st) ops).remoteCommitChain ≠ [] := by
    intro hnil
    rw [hnil] at hlen
    simp at hlen
  have := contigFrom_tip hcontig hne
  omega

/-- A trivial concrete crypto instance used by witnesses and
counterexamples. -/
def cryptoW : Crypto :=
  { sha256 := fun n => n + 1
    derivePriv := fun a b => a + b
    toPub := fun n => n
    derivePub := fun a b => a + b
    elkremConsistent := fun _ _ => true
    localElkremAt := fun n => n + 1 }

/-- C2 counterexample: five zero-pre-image revocations received on a fresh
channel leave `usedRevocations` empty and grow `revocationWindow` to length
five, so `|usedRevocations| + |revocationWindow| ≤ InitialRevocationWindow`
fails on a reachable state. -/
theorem windowBudget_counterexample :
    (runOps cryptoW (newLightningChannel stW)
        (List.replicate 5 (ChanOp.receiveRev
          { revocation := 0, nextRevocationKey := 0, nextRevocationHash := 0 }))).usedRevocations.length +
      (runOps cryptoW (newLightningChannel stW)
        (List.replicate 5 (ChanOp.receiveRev
          { revocation := 0, nextRevocationKey := 0, nextRevocationHash := 0 }))).revocationWindow.length = 5 ∧
    ¬ (5 ≤ InitialRevocationWindow) := by
  constructor
  · decide
  · decide

/-! ### C4: revocation replay rejection -/

/-- C4 (amended): a non-zero pre-image that the remote elkrem receiver
accepts but whose derived revocation public key does not match the stored
`their_current_revocation` makes `ReceiveRevocation` return the KeyMismatch
error; every part of the channel state except the remote elkrem receiver is
unchanged, but the receiver has already absorbed the pre-image (the
`AddNext` call precedes the key check). -/
theorem receiveRevocation_keyMismatch (C : Crypto) (lc : LightningChannel)
    (msg : CommitRevocation)
    (hnz : msg.revocation ≠ 0)
    (helk : C.elkremConsistent lc.channelState.remoteElkrem msg.revocation = true)
    (hkey : C.toPub (C.derivePriv lc.channelState.ourCommitKey msg.revocation) ≠
      lc.channelState.theirCurrentRevocation) :
    receiveRevocation C lc msg =
      ({ lc with channelState :=
          { lc.channelState with
              remoteElkrem := lc.channelState.remoteElkrem ++ [msg.revocation] } },
       .err .keyMismatch) := by
  simp [receiveRevocation, hnz, helk, hkey]

/-- C4 counterexample: a concrete channel and pre-image for which
`ReceiveRevocation` returns the KeyMismatch error yet the channel state is
not unchanged — the remote elkrem receiver has absorbed the pre-image — so
the claim's atomicity statement fails as written. -/
theorem receiveRevocation_replay_counterexample :
    (receiveRevocation cryptoW (newLightningChannel stW)
        { revocation := 5, nextRevocationKey := 9, nextRevocationHash := 10 }).2 =
      .err .keyMismatch ∧
    (receiveRevocation cryptoW (newLightningChannel stW)
        { revocation := 5, nextRevocationKey := 9, nextRevocationHash := 10 }).1 ≠
      newLightningChannel stW ∧
    (receiveRevocation cryptoW (newLightningChannel stW)
        { revocation := 5, nextRevocationKey := 9, nextRevocationHash := 10
        }).1.channelState.remoteElkrem = [5] := by
  refine ⟨by decide, by decide, by decide⟩

theorem receiveRevocation_keyMismatch_witness :
    receiveRevocation cryptoW (newLightningChannel stW)
        { revocation := 5, nextRevocationKey := 9, nextRevocationHash := 10 } =
      ({ newLightningChannel stW with
          channelState := { stW with remoteElkrem := [5] } }, .err .keyMismatch) := by
  have h := receiveRevocation_keyMismatch cryptoW (newLightningChannel stW)
    { revocation := 5, nextRevocationKey := 9, nextRevocationHash := 10 }
    (by decide) (by decide) (by decide)
  exact h.trans (by decide)

/-! ### C7: SettleHTLC -/

/-- The predicate of the `SettleHTLC` search loop: an un-settled Add entry
whose payment hash matches. -/
def settlePred (paymentHash : Nat) (e : PaymentDescriptor) : Bool :=
  e.entryType == .Add && !e.settled && e.rHash == paymentHash

theorem settlePred_true_iff (paymentHash : Nat) (e : PaymentDescriptor) :
    settlePred paymentHash e = true ↔
      (e.entryType = .Add ∧ ¬ e.settled ∧ e.rHash = paymentHash) := by
  simp [settlePred, and_assoc]

theorem settleFirst_none (log : List PaymentDescriptor) (h : Nat)
    (hall : ∀ e ∈ log, settlePred h e = false) : settleFirst log h = none := by
  induction log with
  | nil => rfl
  | cons e rest ih =>
    have he : ¬ (e.entryType = .Add ∧ ¬ e.settled ∧ e.rHash = h) := by
      intro hc
      have := hall e (by simp)
      rw [← settlePred_true_iff h e] at hc
      simp [hc] at this
    rw [settleFirst, if_neg he, ih (fun x hx => hall x (by simp [hx]))]

theorem settleFirst_decomp (pre post : List PaymentDescriptor)
    (e : PaymentDescriptor) (h : Nat)
    (hpre : ∀ x ∈ pre, settlePred h x = false) (he : settlePred h e = true) :
    settleFirst (pre ++ e :: post) h =
      some (pre ++ ({ e with settled := true }) :: post, { e with settled := true }) := by
  induction pre with
  | nil =>
    rw [settlePred_true_iff] at he
    simp [settleFirst, he]
  | cons x xs ih =>
    have hx : ¬ (x.entryType = .Add ∧ ¬ x.settled ∧ x.rHash = h) := by
      intro hc
      have := hpre x (by simp)
      rw [← settlePred_true_iff h x] at hc
      simp [hc] at this
    simp only [List.cons_append, settleFirst, if_neg hx, List.append_eq]
    rw [ih (fun y hy => hpre y (by simp [hy]))]

/-- C7: `SettleHTLC` finds the first un-settled Add entry of the remote log
whose payment hash equals the hash of the pre-image; it marks that entry
settled, appends to our log a Settle entry carrying the parent's amount and
index under the next local log counter, and returns the parent's index.  If
no such entry exists it returns the UnknownPaymentHash error and both logs
(and the counter) are unchanged. -/
theorem settleHTLC_spec (C : Crypto) (lc : LightningChannel) (preimage : Nat) :
    ((∀ e ∈ lc.theirUpdateLog, settlePred (C.sha256 preimage) e = false) →
      settleHTLC C lc preimage = (lc, .err .unknownPaymentHash)) ∧
    (∀ pre e post,
      lc.theirUpdateLog = pre ++ e :: post →
      (∀ x ∈ pre, settlePred (C.sha256 preimage) x = false) →
      settlePred (C.sha256 preimage) e = true →
      settleHTLC C lc preimage =
        ({ lc with
            theirUpdateLog := pre ++ ({ e with settled := true }) :: post
            ourUpdateLog := lc.ourUpdateLog ++
              [{ rHash := 0, timeout := 0, amount := e.amount
                 index := lc.ourLogCounter, parentIndex := e.index
                 entryType := .Settle
                 addCommitHeightRemote := 0, addCommitHeightLocal := 0
                 removeCommitHeightRemote := 0, removeCommitHeightLocal := 0
                 isForwarded := false, settled := false }]
            ourLogCounter := lc.ourLogCounter + 1 }, .ok e.index)) := by
  constructor
  · intro hall
    unfold settleHTLC
    dsimp only
    rw [settleFirst_none lc.theirUpdateLog (C.sha256 preimage) hall]
  · intro pre e post hdecomp hpre he
    unfold settleHTLC
    dsimp only
    rw [hdecomp, settleFirst_decomp pre post e (C.sha256 preimage) hpre he]

/-- A channel holding one incoming HTLC whose payment hash matches
pre-image 42 under `cryptoW`. -/
def lcSettleW : LightningChannel :=
  { newLightningChannel stW with
      theirUpdateLog := [freshAdd { redemptionHash := 43, expiry := 10, amount := 50 } 0]
      theirLogCounter := 1 }

theorem settleHTLC_spec_witness :
    settleHTLC cryptoW (newLightningChannel stW) 42 =
      (newLightningChannel stW, .err .unknownPaymentHash) ∧
    (settleHTLC cryptoW lcSettleW 42).2 = .ok 0 ∧
    (settleHTLC cryptoW lcSettleW 42).1.theirUpdateLog =
      [{ freshAdd { redemptionHash := 43, expiry := 10, amount := 50 } 0 with
          settled := true }] := by
  refine ⟨(settleHTLC_spec cryptoW (newLightningChannel stW) 42).1 (by decide), ?_, ?_⟩
  · have h := (settleHTLC_spec cryptoW lcSettleW 42).2 []
      (freshAdd { redemptionHash := 43, expiry := 10, amount := 50 } 0) []
      (by decide) (by decide) (by decide)
    rw [h]
    decide
  · have h := (settleHTLC_spec cryptoW lcSettleW 42).2 []
      (freshAdd { redemptionHash := 43, expiry := 10, amount := 50 } 0) []
      (by decide) (by decide) (by decide)
    rw [h]
    decide

/-! ### C5: log compaction safety -/

/-- The eviction condition of `compactLogs`: both removal heights recorded
and both chain tails at or past them. -/
def compactable (localChainTail remoteChainTail : Nat) (e : PaymentDescriptor) : Prop :=
  e.removeCommitHeightLocal ≠ 0 ∧ e.removeCommitHeightRemote ≠ 0 ∧
  localChainTail ≥ e.removeCommitHeightLocal ∧ remoteChainTail ≥ e.removeCommitHeightRemote

instance (lt rt : Nat) (e : PaymentDescriptor) : Decidable (compactable lt rt e) := by
  unfold compactable
  infer_instance

theorem compactLogOnce_fst (logA logB : List PaymentDescriptor) (lt rt : Nat) :
    (compactLogOnce logA logB lt rt).1 =
      logA.filter (fun e => decide (e.entryType = .Add ∨ ¬ compactable lt rt e)) := by
  induction logA generalizing logB with
  | nil => simp [compactLogOnce]
  | cons e rest ih =>
    by_cases hAdd : e.entryType = .Add
    · simp [compactLogOnce, hAdd, ih]
    · by_cases hz : e.removeCommitHeightRemote = 0 ∨ e.removeCommitHeightLocal = 0
      · have hnc : ¬ compactable lt rt e := by
          rcases hz with h | h <;> simp [compactable, h]
        simp [compactLogOnce, hAdd, hz, ih, hnc]
      · by_cases hge : rt ≥ e.removeCommitHeightRemote ∧ lt ≥ e.removeCommitHeightLocal
        · have hc : compactable lt rt e := by
            push_neg at hz
            exact ⟨hz.2, hz.1, hge.2, hge.1⟩
          simp [compactLogOnce, hAdd, hz, hge, ih, hc]
        · have hnc : ¬ compactable lt rt e := fun hc => hge ⟨hc.2.2.2, hc.2.2.1⟩
          simp [compactLogOnce, hAdd, hz, hge, ih, hnc]

theorem removeFirstByIndex_sublist (log : List PaymentDescriptor) (i : Nat) :
    (removeFirstByIndex log i).Sublist log := by
  induction log with
  | nil => simp [removeFirstByIndex]
  | cons e rest ih =>
    by_cases he : e.index = i
    · simp only [removeFirstByIndex, if_pos he]
      exact (List.sublist_cons_self e rest)
    · simp only [removeFirstByIndex, if_neg he]
      exact ih.cons₂ e

theorem mem_removeFirstByIndex (log : List PaymentDescriptor) (i : Nat)
    (hN : (log.map (·.index)).Nodup) (b : PaymentDescriptor) :
    b ∈ removeFirstByIndex log i ↔ (b ∈ log ∧ b.index ≠ i) := by
  induction log with
  | nil => simp [removeFirstByIndex]
  | cons e rest ih =>
    simp only [List.map_cons, List.nodup_cons] at hN
    obtain ⟨hnotin, hNr⟩ := hN
    by_cases he : e.index = i
    · simp only [removeFirstByIndex, if_pos he]
      constructor
      · intro hb
        refine ⟨by simp [hb], ?_⟩
        intro hbi
        exact hnotin (by
          rw [he.trans hbi.symm]
          exact List.mem_map_of_mem (·.index) hb)
      · rintro ⟨hb, hbi⟩
        rcases List.mem_cons.mp hb with rfl | hb
        · exact absurd he hbi
        · exact hb
    · simp only [removeFirstByIndex, if_neg he, List.mem_cons]
      rw [ih hNr]
      constructor
      · rintro (rfl | ⟨hb, hbi⟩)
        · exact ⟨Or.inl rfl, he⟩
        · exact ⟨Or.inr hb, hbi⟩
      · rintro ⟨rfl | hb, hbi⟩
        · exact Or.inl rfl
        · exact Or.inr ⟨hb, hbi⟩

theorem mem_compactLogOnce_snd (logA logB : List PaymentDescriptor) (lt rt : Nat)
    (hN : (logB.map (·.index)).Nodup) (b : PaymentDescriptor) :
    b ∈ (compactLogOnce logA logB lt rt).2 ↔
      (b ∈ logB ∧
       ¬ ∃ r ∈ logA, r.entryType ≠ .Add ∧ compactable lt rt r ∧ r.parentIndex = b.index) := by
  induction logA generalizing logB with
  | nil => simp [compactLogOnce]
  | cons e rest ih =>
    by_cases hAdd : e.entryType = .Add
    · rw [show (compactLogOnce (e :: rest) logB lt rt).2 =
          (compactLogOnce rest logB lt rt).2 by simp [compactLogOnce, hAdd]]
      rw [ih logB hN]
      simp only [List.mem_cons]
      constructor
      · rintro ⟨hb, hnr⟩
        refine ⟨hb, ?_⟩
        rintro ⟨r, rfl | hr, hne, hc, hp⟩
        · exact hne hAdd
        · exact hnr ⟨r, hr, hne, hc, hp⟩
      · rintro ⟨hb, hnr⟩
        refine ⟨hb, ?_⟩
        rintro ⟨r, hr, hne, hc, hp⟩
        exact hnr ⟨r, Or.inr hr, hne, hc, hp⟩
    · by_cases hc : compactable lt rt e
      · have hz : ¬ (e.removeCommitHeightRemote = 0 ∨ e.removeCommitHeightLocal = 0) := by
          rintro (h | h)
          · exact hc.2.1 h
          · exact hc.1 h
        have hge : rt ≥ e.removeCommitHeightRemote ∧ lt ≥ e.removeCommitHeightLocal :=
          ⟨hc.2.2.2, hc.2.2.1⟩
        rw [show (compactLogOnce (e :: rest) logB lt rt).2 =
            (compactLogOnce rest (removeFirstByIndex logB e.parentIndex) lt rt).2 by
          simp [compactLogOnce, hAdd, hz, hge]]
        have hN' : ((removeFirstByIndex logB e.parentIndex).map (·.index)).Nodup :=
          hN.sublist ((removeFirstByIndex_sublist logB e.parentIndex).map (·.index))
        rw [ih _ hN', mem_removeFirstByIndex logB e.parentIndex hN b]
        simp only [List.mem_cons]
        constructor
        · rintro ⟨⟨hb, hbi⟩, hnr⟩
          refine ⟨hb, ?_⟩
          rintro ⟨r, rfl | hr, hne, hcr, hp⟩
          · exact hbi hp.symm
          · exact hnr ⟨r, hr, hne, hcr, hp⟩
        · rintro ⟨hb, hnr⟩
          refine ⟨⟨hb, fun hbi => hnr ⟨e, Or.inl rfl, hAdd, hc, hbi.symm⟩⟩, ?_⟩
          rintro ⟨r, hr, hne, hcr, hp⟩
          exact hnr ⟨r, Or.inr hr, hne, hcr, hp⟩
      · have hbranch : (compactLogOnce (e :: rest) logB lt rt).2 =
            (compactLogOnce rest logB lt rt).2 := by
          by_cases hz : e.removeCommitHeightRemote = 0 ∨ e.removeCommitHeightLocal = 0
          · simp [compactLogOnce, hAdd, hz]
          · have hge : ¬ (rt ≥ e.removeCommitHeightRemote ∧ lt ≥ e.removeCommitHeightLocal) := by
              intro hge
              push_neg at hz
              exact hc ⟨hz.2, hz.1, hge.2, hge.1⟩
            simp [compactLogOnce, hAdd, hz, hge]
        rw [hbranch, ih logB hN]
        simp only [List.mem_cons]
        constructor
        · rintro ⟨hb, hnr⟩
          refine ⟨hb, ?_⟩
          rintro ⟨r, rfl | hr, hne, hcr, hp⟩
          · exact hc hcr
          · exact hnr ⟨r, hr, hne, hcr, hp⟩
        · rintro ⟨hb, hnr⟩
          refine ⟨hb, ?_⟩
          rintro ⟨r, hr, hne, hcr, hp⟩
          exact hnr ⟨r, Or.inr hr, hne, hcr, hp⟩

/-- C5: `compactLogs` removes a Settle/Timeout entry exactly when both its
removal heights are recorded (non-zero) and both chain tails have reached
them; the entry's parent Add in the opposite log is removed exactly when
such an evicted child exists; every other entry — in particular every Add
considered directly — stays.  Stated for well-formed logs: indices are
unique per log and every Settle/Timeout has an Add parent in the opposite
log. -/
theorem compactLogs_spec (ourLog theirLog : List PaymentDescriptor) (lt rt : Nat)
    (hNo : (ourLog.map (·.index)).Nodup)
    (hNt : (theirLog.map (·.index)).Nodup)
    (hPo : ∀ r ∈ ourLog, r.entryType ≠ .Add →
      ∃ a ∈ theirLog, a.index = r.parentIndex ∧ a.entryType = .Add)
    (hPt : ∀ r ∈ theirLog, r.entryType ≠ .Add →
      ∃ a ∈ ourLog, a.index = r.parentIndex ∧ a.entryType = .Add) :
    (∀ e ∈ ourLog, e.entryType ≠ .Add →
      (e ∈ (compactLogs ourLog theirLog lt rt).1 ↔ ¬ compactable lt rt e)) ∧
    (∀ a ∈ ourLog, a.entryType = .Add →
      (a ∈ (compactLogs ourLog theirLog lt rt).1 ↔
        ¬ ∃ r ∈ theirLog, r.entryType ≠ .Add ∧ compactable lt rt r ∧
          r.parentIndex = a.index)) ∧
    (∀ e ∈ theirLog, e.entryType ≠ .Add →
      (e ∈ (compactLogs ourLog theirLog lt rt).2 ↔ ¬ compactable lt rt e)) ∧
    (∀ a ∈ theirLog, a.entryType = .Add →
      (a ∈ (compactLogs ourLog theirLog lt rt).2 ↔
        ¬ ∃ r ∈ ourLog, r.entryType ≠ .Add ∧ compactable lt rt r ∧
          r.parentIndex = a.index)) := by
  have hres1 : (compactLogs ourLog theirLog lt rt).1 =
      (compactLogOnce
        (compactLogOnce ourLog theirLog lt rt).2
        (compactLogOnce ourLog theirLog lt rt).1 lt rt).2 := rfl
  have hres2 : (compactLogs ourLog theirLog lt rt).2 =
      (compactLogOnce
        (compactLogOnce ourLog theirLog lt rt).2
        (compactLogOnce ourLog theirLog lt rt).1 lt rt).1 := rfl
  have hN1 : ((compactLogOnce ourLog theirLog lt rt).1.map (·.index)).Nodup := by
    rw [compactLogOnce_fst]
    exact hNo.sublist ((List.filter_sublist ourLog).map (·.index))
  -- membership in the pruned their log after the first pass
  have hmem2 : ∀ b, b ∈ (compactLogOnce ourLog theirLog lt rt).2 ↔
      (b ∈ theirLog ∧
       ¬ ∃ r ∈ ourLog, r.entryType ≠ .Add ∧ compactable lt rt r ∧ r.parentIndex = b.index) :=
    mem_compactLogOnce_snd ourLog theirLog lt rt hNt
  -- a Settle/Timeout of the their log is never removed by the first pass
  have hsurvive : ∀ b ∈ theirLog, b.entryType ≠ .Add →
      b ∈ (compactLogOnce ourLog theirLog lt rt).2 := by
    intro b hb hbne
    rw [hmem2 b]
    refine ⟨hb, ?_⟩
    rintro ⟨r, hr, hrne, -, hp⟩
    obtain ⟨a, ha, hai, haty⟩ := hPo r hr hrne
    have : a = b := List.inj_on_of_nodup_map hNt ha hb (by rw [hai, hp])
    rw [this] at haty
    exact hbne haty
  -- symmetric fact for the our log against their Settle/Timeouts
  have hsurvive1 : ∀ b ∈ ourLog, b.entryType ≠ .Add →
      (b ∈ (compactLogOnce ourLog theirLog lt rt).1 ↔ ¬ compactable lt rt b) := by
    intro b hb hbne
    rw [compactLogOnce_fst, List.mem_filter]
    constructor
    · rintro ⟨-, hp⟩
      rcases of_decide_eq_true hp with h | h
      · exact absurd h hbne
      · exact h
    · intro h
      exact ⟨hb, decide_eq_true (Or.inr h)⟩
  have hadds1 : ∀ b ∈ ourLog, b.entryType = .Add →
      b ∈ (compactLogOnce ourLog theirLog lt rt).1 := by
    intro b hb hbty
    rw [compactLogOnce_fst, List.mem_filter]
    exact ⟨hb, decide_eq_true (Or.inl hbty)⟩
  have hmemfirst1 : ∀ b, b ∈ (compactLogOnce ourLog theirLog lt rt).1 → b ∈ ourLog := by
    intro b hb
    rw [compactLogOnce_fst] at hb
    exact List.mem_of_mem_filter hb
  refine ⟨?_, ?_, ?_, ?_⟩
  · -- our Settle/Timeout entries
    intro e he hene
    rw [hres1, mem_compactLogOnce_snd _ _ lt rt hN1 e]
    constructor
    · rintro ⟨h1, -⟩
      exact ((hsurvive1 e he hene).mp h1)
    · intro h
      refine ⟨(hsurvive1 e he hene).mpr h, ?_⟩
      rintro ⟨r, hr, hrne, -, hp⟩
      have hrt : r ∈ theirLog := ((hmem2 r).mp hr).1
      obtain ⟨a, ha, hai, haty⟩ := hPt r hrt hrne
      have : a = e := List.inj_on_of_nodup_map hNo ha he (by rw [hai, hp])
      rw [this] at haty
      exact hene haty
  · -- our Add entries
    intro a ha haty
    rw [hres1, mem_compactLogOnce_snd _ _ lt rt hN1 a]
    constructor
    · rintro ⟨-, hnr⟩
      rintro ⟨r, hr, hrne, hrc, hp⟩
      exact hnr ⟨r, hsurvive r hr hrne, hrne, hrc, hp⟩
    · intro hnr
      refine ⟨hadds1 a ha haty, ?_⟩
      rintro ⟨r, hr, hrne, hrc, hp⟩
      exact hnr ⟨r, ((hmem2 r).mp hr).1, hrne, hrc, hp⟩
  · -- their Settle/Timeout entries
    intro e he hene
    rw [hres2, compactLogOnce_fst, List.mem_filter]
    constructor
    · rintro ⟨-, hp⟩
      rcases of_decide_eq_true hp with h | h
      · exact absurd h hene
      · exact h
    · intro h
      exact ⟨hsurvive e he hene, decide_eq_true (Or.inr h)⟩
  · -- their Add entries
    intro a ha haty
    rw [hres2, compactLogOnce_fst, List.mem_filter]
    constructor
    · rintro ⟨hmem, -⟩
      exact ((hmem2 a).mp hmem).2
    · intro hnr
      exact ⟨(hmem2 a).mpr ⟨ha, hnr⟩, decide_eq_true (Or.inl haty)⟩

/-- A compactable Settle entry in our log (its parent lives in the remote
log). -/
def settleCompactW : PaymentDescriptor :=
  { rHash := 0, timeout := 0, amount := 50, index := 0, parentIndex := 0
    entryType := .Settle
    addCommitHeightRemote := 0, addCommitHeightLocal := 0
    removeCommitHeightRemote := 1, removeCommitHeightLocal := 1
    isForwarded := false, settled := false }

/-- The parent Add of `settleCompactW`, in the remote log. -/
def addParentW : PaymentDescriptor :=
  { rHash := 7, timeout := 0, amount := 50, index := 0, parentIndex := 0
    entryType := .Add
    addCommitHeightRemote := 1, addCommitHeightLocal := 1
    removeCommitHeightRemote := 0, removeCommitHeightLocal := 0
    isForwarded := false, settled := false }

theorem compactLogs_spec_witness :
    settleCompactW ∉ (compactLogs [settleCompactW] [addParentW] 1 1).1 ∧
    addParentW ∉ (compactLogs [settleCompactW] [addParentW] 1 1).2 := by
  have h := compactLogs_spec [settleCompactW] [addParentW] 1 1
    (by decide) (by decide)
    (by
      intro r hr hne
      simp at hr
      subst hr
      exact ⟨addParentW, by decide, by decide, by decide⟩)
    (by intro r hr hne; simp at hr; rw [hr] at hne; exact absurd rfl hne)
  constructor
  · intro hmem
    exact (h.1 settleCompactW (by decide) (by decide)).mp hmem (by decide)
  · intro hmem
    exact (h.2.2.2 addParentW (by decide) (by decide)).mp hmem
      ⟨settleCompactW, by decide, by decide, by decide, by decide⟩

/-! ### C9: cooperative close construction -/

/-- Modelled from the spec: the cooperative-close output list as the
specification words it — exactly one output per party with non-zero settled
balance, paying that party's balance to its delivery script (our output
first, as the source appends).  Used to compare the source's construction
against the spec. -/
def closeOutputsSpec (ourBalance theirBalance : Int)
    (ourDeliveryScript theirDeliveryScript : List Nat) : List TxOut :=
  (if ourBalance ≠ 0 then
    [{ value := ourBalance, pkScript := .bytes ourDeliveryScript }] else []) ++
  (if theirBalance ≠ 0 then
    [{ value := theirBalance, pkScript := .bytes theirDeliveryScript }] else [])

theorem createCooperativeCloseTx_eq (f : TxIn) (ourBalance theirBalance : Int)
    (ourDeliveryScript theirDeliveryScript : List Nat) (initiator : Bool) :
    createCooperativeCloseTx f ourBalance theirBalance
        ourDeliveryScript theirDeliveryScript initiator =
      ColorifyTx (txsortInPlaceSort
        { version := 1, txIns := [f]
          txOuts := closeOutputsSpec ourBalance theirBalance
            ourDeliveryScript theirDeliveryScript }) false := by
  unfold createCooperativeCloseTx closeOutputsSpec
  by_cases h1 : ourBalance ≠ 0 <;> by_cases h2 : theirBalance ≠ 0 <;> simp [h1, h2]

/-- C9 (amended): when the status is closing or closed,
`InitCooperativeClose` returns the ChannelClosing error with no state
change.  Otherwise the status moves to closing (even if signing then
fails), and the transaction it signs is the *colorified* form of the
canonically sorted transaction holding one output per party with non-zero
settled balance: the signed transaction itself pays each sorted delivery
script a dust amount and appends a zero-value OP_RETURN output carrying the
balances as colored-coin instructions, rather than paying the balances as
bitcoin output values. -/
theorem initCooperativeClose_spec (lc : LightningChannel) (signOk : Bool) :
    ((lc.status = .closing ∨ lc.status = .closed) →
      initCooperativeClose lc signOk = (lc, .err .chanClosing)) ∧
    (lc.status ≠ .closing → lc.status ≠ .closed →
      (initCooperativeClose lc signOk).1 = { lc with status := .closing } ∧
      (signOk = true →
        (initCooperativeClose lc signOk).2 = .ok (ColorifyTx
          (txsortInPlaceSort
            { version := 1, txIns := [lc.fundingTxIn]
              txOuts := closeOutputsSpec lc.channelState.ourBalance
                lc.channelState.theirBalance lc.channelState.ourDeliveryScript
                lc.channelState.theirDeliveryScript }) false))) := by
  constructor
  · intro hst
    unfold initCooperativeClose
    rw [if_pos hst]
  · intro h1 h2
    have hst : ¬ (lc.status = .closing ∨ lc.status = .closed) := by
      rintro (h | h)
      · exact h1 h
      · exact h2 h
    constructor
    · unfold initCooperativeClose
      rw [if_neg hst]
      dsimp only
      by_cases hs : signOk = true <;> simp [hs]
    · intro hs
      subst hs
      unfold initCooperativeClose
      rw [if_neg hst]
      dsimp only
      rw [if_pos rfl, createCooperativeCloseTx_eq]

/-- A concrete open channel with settled balances 5000/7000 for the
cooperative-close counterexample. -/
def stC9 : OpenChannel :=
  { ourBalance := 5000, theirBalance := 7000, capacity := 12000, numUpdates := 0
    ourCommitKey := 1, theirCommitKey := 2
    theirCurrentRevocation := 3, theirCurrentRevocationHash := 0
    remoteElkrem := [], ourDeliveryScript := [1], theirDeliveryScript := [2]
    fundingOutpoint := { hash := 5, index := 0 } }

/-- The transaction `InitCooperativeClose` actually signs on `stC9`. -/
def txC9 : MsgTx :=
  { version := 1, txIns := [{ prevHash := 5, prevIndex := 0 }]
    txOuts := [{ value := 546, pkScript := .bytes [1] },
               { value := 546, pkScript := .bytes [2] },
               { value := 0, pkScript := .opReturn
                  [{ skipFlag := false, rangeFlag := false, percent := false
                     output := 0, amount := 5000 },
                   { skipFlag := false, rangeFlag := false, percent := false
                     output := 1, amount := 7000 }] }] }

/-- C9 counterexample: on a channel with balances 5000 and 7000 the
transaction signed by `InitCooperativeClose` has three outputs, not two,
and none of its output values equals either settled balance — the balances
only appear inside the trailing OP_RETURN colored-coin instructions — so
the claim's description of the signed transaction fails as stated. -/
theorem initCooperativeClose_counterexample :
    (initCooperativeClose (newLightningChannel stC9) true).2 = .ok txC9 ∧
    txC9.txOuts.length = 3 ∧
    (txC9.txOuts.all (fun o => o.value != 5000 && o.value != 7000)) = true := by
  refine ⟨by decide, by decide, by decide⟩

theorem initCooperativeClose_spec_witness :
    (initCooperativeClose (newLightningChannel stC9) true).1.status = .closing ∧
    initCooperativeClose { newLightningChannel stC9 with status := .closing } true =
      ({ newLightningChannel stC9 with status := .closing }, .err .chanClosing) := by
  constructor
  · have h := (initCooperativeClose_spec (newLightningChannel stC9) true).2
      (by decide) (by decide)
    rw [h.1]
  · exact (initCooperativeClose_spec
      { newLightningChannel stC9 with status := .closing } true).1 (Or.inl rfl)

/-! ### C1: balance conservation of commitment views -/

theorem sumAmounts_filter (l : List PaymentDescriptor) (p : PaymentDescriptor → Bool) :
    sumAmounts (l.filter p) = (l.map (fun e => if p e then e.amount else 0)).sum := by
  induction l with
  | nil => rfl
  | cons e rest ih =>
    by_cases h : p e = true <;> simp [sumAmounts, List.filter_cons, h] at ih ⊢ <;>
      rw [← ih]

theorem sum_map_add_sub (l : List PaymentDescriptor) (f g h : PaymentDescriptor → Int) :
    (l.map (fun x => f x + g x - h x)).sum =
      (l.map f).sum + (l.map g).sum - (l.map h).sum := by
  induction l with
  | nil => simp
  | cons e rest ih => simp [ih]; ring

theorem sum_map_congr_mem (l : List PaymentDescriptor) (f g : PaymentDescriptor → Int)
    (h : ∀ a ∈ l, f a = g a) : (l.map f).sum = (l.map g).sum := by
  induction l with
  | nil => rfl
  | cons e rest ih =>
    simp only [List.map_cons, List.sum_cons]
    rw [h e (by simp), ih (fun a ha => h a (by simp [ha]))]

theorem sum_congr_one (A : List PaymentDescriptor) (f g : PaymentDescriptor → Int)
    (hN : (A.map (·.index)).Nodup) (a₀ : PaymentDescriptor) (ha₀ : a₀ ∈ A)
    (hne : ∀ a ∈ A, a.index ≠ a₀.index → f a = g a) :
    (A.map f).sum = (A.map g).sum + (f a₀ - g a₀) := by
  induction A with
  | nil => simp at ha₀
  | cons x rest ih =>
    simp only [List.map_cons, List.nodup_cons] at hN
    obtain ⟨hnotin, hNr⟩ := hN
    rcases List.mem_cons.mp ha₀ with rfl | hmem
    · have hrest : ∀ a ∈ rest, f a = g a := by
        intro a ha
        refine hne a (by simp [ha]) ?_
        intro hidx
        exact hnotin (hidx ▸ List.mem_map_of_mem (·.index) ha)
      simp only [List.map_cons, List.sum_cons]
      rw [sum_map_congr_mem rest f g hrest]
      ring
    · have hxne : x.index ≠ a₀.index := by
        intro hidx
        exact hnotin (hidx ▸ List.mem_map_of_mem (·.index) hmem)
      have hx : f x = g x := hne x (by simp) hxne
      simp only [List.map_cons, List.sum_cons]
      rw [hx, ih hNr hmem (fun a ha hai => hne a (by simp [ha]) hai)]
      ring

/-- The data of a log entry read by the Add pass: index, type, addition
height on the chain being built, and amount.  The removal pass only writes
removal heights, so it preserves this projection. -/
def pdKey (σ : Bool) (e : PaymentDescriptor) : Nat × UpdateType × Nat × Int :=
  (e.index, e.entryType, addHeightFor σ e, e.amount)

theorem processRemoveEntry_key (e : PaymentDescriptor) (o t : Int) (h : Nat)
    (σ inc : Bool) : pdKey σ (processRemoveEntry e o t h σ inc).1 = pdKey σ e := by
  unfold processRemoveEntry
  by_cases hr : removeHeightFor σ e ≠ 0
  · rw [if_pos hr]
  · rw [if_neg hr]
    cases σ <;> simp [pdKey, setRemoveHeight, addHeightFor]

theorem applyRemovesToLog_key (L : List PaymentDescriptor) (b : Nat) (o t : Int)
    (h : Nat) (σ inc : Bool) :
    ((applyRemovesToLog L b o t h σ inc).1).map (pdKey σ) = L.map (pdKey σ) := by
  induction L generalizing o t with
  | nil => rfl
  | cons e rest ih =>
    unfold applyRemovesToLog
    by_cases hc : e.index < b ∧ e.entryType ≠ .Add
    · rw [if_pos hc]
      simp only [List.map_cons]
      rw [processRemoveEntry_key, ih]
    · rw [if_neg hc]
      simp only [List.map_cons]
      rw [ih]

theorem processRemoveEntry_balanceSum (e : PaymentDescriptor) (o t : Int) (h : Nat)
    (σ inc : Bool) (hne : e.entryType ≠ .Add) :
    (processRemoveEntry e o t h σ inc).2.1 + (processRemoveEntry e o t h σ inc).2.2 =
      o + t + (if removeHeightFor σ e = 0 then e.amount else 0) := by
  unfold processRemoveEntry
  by_cases hr : removeHeightFor σ e ≠ 0
  · rw [if_pos hr]
    simp [hr]
  · rw [if_neg hr]
    push_neg at hr
    rw [if_pos hr]
    cases hty : e.entryType with
    | Add => exact absurd hty hne
    | Timeout => cases inc <;> simp <;> ring
    | Settle => cases inc <;> simp <;> ring

theorem applyRemovesToLog_balanceSum (L : List PaymentDescriptor) (b : Nat)
    (o t : Int) (h : Nat) (σ inc : Bool) :
    (applyRemovesToLog L b o t h σ inc).2.1 + (applyRemovesToLog L b o t h σ inc).2.2 =
      o + t + sumAmounts (L.filter
        (fun e => decide (e.index < b ∧ e.entryType ≠ .Add ∧ removeHeightFor σ e = 0))) := by
  induction L generalizing o t with
  | nil => simp [applyRemovesToLog, sumAmounts]
  | cons e rest ih =>
    unfold applyRemovesToLog
    by_cases hc : e.index < b ∧ e.entryType ≠ .Add
    · rw [if_pos hc]
      dsimp only
      rw [ih]
      rw [processRemoveEntry_balanceSum e o t h σ inc hc.2]
      by_cases hz : removeHeightFor σ e = 0
      · rw [if_pos hz,
          show (e :: rest).filter
            (fun e => decide (e.index < b ∧ e.entryType ≠ .Add ∧ removeHeightFor σ e = 0)) =
          e :: rest.filter
            (fun e => decide (e.index < b ∧ e.entryType ≠ .Add ∧ removeHeightFor σ e = 0)) by
          simp [List.filter_cons, hc.1, hc.2, hz]]
        simp [sumAmounts]
        ring
      · rw [if_neg hz,
          show (e :: rest).filter
            (fun e => decide (e.index < b ∧ e.entryType ≠ .Add ∧ removeHeightFor σ e = 0)) =
          rest.filter
            (fun e => decide (e.index < b ∧ e.entryType ≠ .Add ∧ removeHeightFor σ e = 0)) by
          simp [List.filter_cons, hz]]
        ring
    · rw [if_neg hc]
      dsimp only
      rw [ih]
      rw [show (e :: rest).filter
            (fun e => decide (e.index < b ∧ e.entryType ≠ .Add ∧ removeHeightFor σ e = 0)) =
          rest.filter
            (fun e => decide (e.index < b ∧ e.entryType ≠ .Add ∧ removeHeightFor σ e = 0)) by
          simp only [List.filter_cons]
          rw [if_neg (by
            simp only [decide_eq_true_eq]
            intro hcon
            exact hc ⟨hcon.1, hcon.2.1⟩)]]

theorem processAddEntry_amount (e : PaymentDescriptor) (o t : Int) (h : Nat)
    (σ inc : Bool) : (processAddEntry e o t h σ inc).1.amount = e.amount := by
  unfold processAddEntry
  by_cases ha : addHeightFor σ e ≠ 0
  · rw [if_pos ha]
  · rw [if_neg ha]
    exact setAddHeight_amount σ h e

theorem processAddEntry_balanceSum (e : PaymentDescriptor) (o t : Int) (h : Nat)
    (σ inc : Bool) :
    (processAddEntry e o t h σ inc).2.1 + (processAddEntry e o t h σ inc).2.2 =
      o + t - (if addHeightFor σ e = 0 then e.amount else 0) := by
  unfold processAddEntry
  by_cases ha : addHeightFor σ e ≠ 0
  · rw [if_pos ha]
    simp [ha]
  · rw [if_neg ha]
    push_neg at ha
    rw [if_pos ha]
    cases inc <;> simp <;> ring

theorem applyAddsToLog_balanceSum (L : List PaymentDescriptor) (b : Nat)
    (skip : List Nat) (o t : Int) (h : Nat) (σ inc : Bool) :
    (applyAddsToLog L b skip o t h σ inc).2.1 +
      (applyAddsToLog L b skip o t h σ inc).2.2.1 =
      o + t - sumAmounts (L.filter (fun e => decide (e.index < b ∧ e.entryType = .Add ∧
        ¬ skip.contains e.index ∧ addHeightFor σ e = 0))) := by
  induction L generalizing o t with
  | nil => simp [applyAddsToLog, sumAmounts]
  | cons e rest ih =>
    unfold applyAddsToLog
    by_cases hc : e.index < b ∧ e.entryType = .Add ∧ ¬ skip.contains e.index
    · rw [if_pos hc]
      dsimp only
      rw [ih, processAddEntry_balanceSum e o t h σ inc]
      by_cases hz : addHeightFor σ e = 0
      · rw [if_pos hz,
          show (e :: rest).filter (fun e => decide (e.index < b ∧ e.entryType = .Add ∧
              ¬ skip.contains e.index ∧ addHeightFor σ e = 0)) =
            e :: rest.filter (fun e => decide (e.index < b ∧ e.entryType = .Add ∧
              ¬ skip.contains e.index ∧ addHeightFor σ e = 0)) by
          simp only [List.filter_cons]
          rw [if_pos (decide_eq_true ⟨hc.1, hc.2.1, hc.2.2, hz⟩)]]
        simp [sumAmounts]
        ring
      · rw [if_neg hz,
          show (e :: rest).filter (fun e => decide (e.index < b ∧ e.entryType = .Add ∧
              ¬ skip.contains e.index ∧ addHeightFor σ e = 0)) =
            rest.filter (fun e => decide (e.index < b ∧ e.entryType = .Add ∧
              ¬ skip.contains e.index ∧ addHeightFor σ e = 0)) by
          simp only [List.filter_cons]
          rw [if_neg (by
            simp only [decide_eq_true_eq]
            intro hcon
            exact hz hcon.2.2.2)]]
        ring
    · rw [if_neg hc]
      dsimp only
      rw [ih,
        show (e :: rest).filter (fun e => decide (e.index < b ∧ e.entryType = .Add ∧
            ¬ skip.contains e.index ∧ addHeightFor σ e = 0)) =
          rest.filter (fun e => decide (e.index < b ∧ e.entryType = .Add ∧
            ¬ skip.contains e.index ∧ addHeightFor σ e = 0)) by
        simp only [List.filter_cons]
        rw [if_neg (by
          simp only [decide_eq_true_eq]
          intro hcon
          exact hc ⟨hcon.1, hcon.2.1, hcon.2.2.1⟩)]]

theorem applyAddsToLog_view_amounts (L : List PaymentDescriptor) (b : Nat)
    (skip : List Nat) (o t : Int) (h : Nat) (σ inc : Bool) :
    ((applyAddsToLog L b skip o t h σ inc).2.2.2).map (·.amount) =
      (L.filter (fun e => decide (e.index < b ∧ e.entryType = .Add ∧
        ¬ skip.contains e.index))).map (·.amount) := by
  induction L generalizing o t with
  | nil => rfl
  | cons e rest ih =>
    unfold applyAddsToLog
    by_cases hc : e.index < b ∧ e.entryType = .Add ∧ ¬ skip.contains e.index
    · rw [if_pos hc]
      dsimp only
      rw [show (e :: rest).filter (fun e => decide (e.index < b ∧ e.entryType = .Add ∧
            ¬ skip.contains e.index)) =
          e :: rest.filter (fun e => decide (e.index < b ∧ e.entryType = .Add ∧
            ¬ skip.contains e.index)) by
        simp only [List.filter_cons]
        rw [if_pos (decide_eq_true hc)]]
      simp only [List.map_cons]
      rw [processAddEntry_amount, ih]
    · rw [if_neg hc]
      dsimp only
      rw [show (e :: rest).filter (fun e => decide (e.index < b ∧ e.entryType = .Add ∧
            ¬ skip.contains e.index)) =
          rest.filter (fun e => decide (e.index < b ∧ e.entryType = .Add ∧
            ¬ skip.contains e.index)) by
        simp only [List.filter_cons]
        rw [if_neg (by
          simp only [decide_eq_true_eq]
          exact hc)]]
      exact ih o t

theorem transfer_filter_amounts (σ : Bool) (P : PaymentDescriptor → Bool)
    (hP : ∀ a b, pdKey σ a = pdKey σ b → P a = P b) :
    ∀ (L1 L2 : List PaymentDescriptor), L1.map (pdKey σ) = L2.map (pdKey σ) →
      (L1.filter P).map (·.amount) = (L2.filter P).map (·.amount) := by
  intro L1
  induction L1 with
  | nil =>
    intro L2 hk
    cases L2 with
    | nil => rfl
    | cons e2 r2 => simp at hk
  | cons e1 r1 ih =>
    intro L2 hk
    cases L2 with
    | nil => simp at hk
    | cons e2 r2 =>
      simp only [List.map_cons, List.cons.injEq] at hk
      obtain ⟨hkey, hrest⟩ := hk
      have hamt : e1.amount = e2.amount := congrArg (fun k => k.2.2.2) hkey
      have hp : P e1 = P e2 := hP e1 e2 hkey
      by_cases h1 : P e1 = true
      · rw [List.filter_cons, List.filter_cons, if_pos h1, if_pos (hp ▸ h1)]
        simp only [List.map_cons]
        rw [hamt, ih r2 hrest]
      · rw [List.filter_cons, List.filter_cons, if_neg h1, if_neg (hp ▸ h1)]
        exact ih r2 hrest

theorem skipSet_eq (R L : List PaymentDescriptor)
    (hfind : ∀ r ∈ R, (logLookup L r.parentIndex).isSome) :
    skipSet R L = R.map (·.parentIndex) := by
  induction R with
  | nil => rfl
  | cons r rest ih =>
    rcases hl : logLookup L r.parentIndex with _ | a
    · have := hfind r (by simp)
      rw [hl] at this
      simp at this
    · have hai : a.index = r.parentIndex := by
        have := List.find?_some hl
        simpa using this
      unfold skipSet
      simp only [List.filterMap_cons, hl, Option.map_some']
      rw [hai]
      unfold skipSet at ih
      rw [ih (fun x hx => hfind x (by simp [hx]))]
      simp

theorem pairing_core (σ : Bool) (A : List PaymentDescriptor)
    (hN : (A.map (·.index)).Nodup) :
    ∀ (R : List PaymentDescriptor),
    (∀ r ∈ R, ∃ a ∈ A, a.index = r.parentIndex ∧ addHeightFor σ a ≠ 0 ∧
      a.amount = r.amount) →
    R.Pairwise (fun r1 r2 => r1.parentIndex ≠ r2.parentIndex) →
    ((R.filter (fun r => decide (removeHeightFor σ r = 0))).map (·.amount)).sum =
      (A.map (fun a => if ∃ r ∈ R, r.parentIndex = a.index ∧ removeHeightFor σ r = 0
        then a.amount else 0)).sum := by
  intro R
  induction R with
  | nil =>
    intro _ _
    simp
  | cons r R' ih =>
    intro hParent hInj
    obtain ⟨hdiff, hInj'⟩ := List.pairwise_cons.mp hInj
    obtain ⟨a₀, ha₀, hidx, haddH, hamt⟩ := hParent r (by simp)
    have ihr := ih (fun x hx => hParent x (by simp [hx])) hInj'
    have hne : ∀ a ∈ A, a.index ≠ a₀.index →
        (if ∃ x ∈ r :: R', x.parentIndex = a.index ∧ removeHeightFor σ x = 0
          then a.amount else 0) =
        (if ∃ x ∈ R', x.parentIndex = a.index ∧ removeHeightFor σ x = 0
          then a.amount else 0) := by
      intro a ha hai
      refine if_congr ?_ rfl rfl
      constructor
      · rintro ⟨x, hx, hp, hfresh⟩
        rcases List.mem_cons.mp hx with rfl | hx
        · exact absurd (hp ▸ hidx).symm hai
        · exact ⟨x, hx, hp, hfresh⟩
      · rintro ⟨x, hx, hp, hfresh⟩
        exact ⟨x, by simp [hx], hp, hfresh⟩
    have hsum := sum_congr_one A
      (fun a => if ∃ x ∈ r :: R', x.parentIndex = a.index ∧ removeHeightFor σ x = 0
        then a.amount else 0)
      (fun a => if ∃ x ∈ R', x.parentIndex = a.index ∧ removeHeightFor σ x = 0
        then a.amount else 0)
      hN a₀ ha₀ hne
    have hga : (if ∃ x ∈ R', x.parentIndex = a₀.index ∧ removeHeightFor σ x = 0
        then a₀.amount else 0) = 0 := by
      refine if_neg ?_
      rintro ⟨x, hx, hp, -⟩
      exact hdiff x hx (hidx.symm.trans hp.symm)
    have hfa : (if ∃ x ∈ r :: R', x.parentIndex = a₀.index ∧ removeHeightFor σ x = 0
        then a₀.amount else 0) = if removeHeightFor σ r = 0 then r.amount else 0 := by
      by_cases hfr : removeHeightFor σ r = 0
      · rw [if_pos ⟨r, by simp, hidx.symm, hfr⟩, if_pos hfr, hamt]
      · rw [if_neg ?_, if_neg hfr]
        rintro ⟨x, hx, hp, hfresh⟩
        rcases List.mem_cons.mp hx with rfl | hx
        · exact hfr hfresh
        · exact hdiff x hx (hidx.symm.trans hp.symm)
    rw [hsum]
    dsimp only
    rw [hga, hfa, ← ihr]
    by_cases hfr : removeHeightFor σ r = 0
    · rw [List.filter_cons, if_pos (decide_eq_true hfr), if_pos hfr]
      simp only [List.map_cons, List.sum_cons]
      ring
    · rw [List.filter_cons, if_neg (by simpa using hfr), if_neg hfr]
      ring

theorem side_identity (σ : Bool) (bA : Nat) (A R : List PaymentDescriptor)
    (hN : (A.map (·.index)).Nodup)
    (hParent : ∀ r ∈ R, ∃ a ∈ A, a.index = r.parentIndex ∧ a.index < bA ∧
      a.entryType = .Add ∧ addHeightFor σ a ≠ 0 ∧ a.amount = r.amount)
    (hInj : R.Pairwise (fun r1 r2 => r1.parentIndex ≠ r2.parentIndex)) :
    sumAmounts (R.filter (fun r => decide (removeHeightFor σ r = 0)))
    + sumAmounts (A.filter (fun a => decide (a.index < bA ∧ a.entryType = .Add ∧
        ¬ ((R.map (·.parentIndex)).contains a.index))))
    - sumAmounts (A.filter (fun a => decide (a.index < bA ∧ a.entryType = .Add ∧
        ¬ ((R.map (·.parentIndex)).contains a.index) ∧ addHeightFor σ a = 0)))
    = sumAmounts (A.filter (fun a => decide (a.index < bA ∧ a.entryType = .Add ∧
        addHeightFor σ a ≠ 0 ∧
        ¬ ∃ r ∈ R, r.parentIndex = a.index ∧ removeHeightFor σ r ≠ 0))) := by
  have hcontains : ∀ (i : Nat), (R.map (·.parentIndex)).contains i = true ↔
      ∃ r ∈ R, r.parentIndex = i := by
    intro i
    simp [List.contains_iff_exists_mem_beq, eq_comm]
  have hcore := pairing_core σ A hN R
    (fun r hr => by
      obtain ⟨a, ha, h1, h2, h3, h4, h5⟩ := hParent r hr
      exact ⟨a, ha, h1, h4, h5⟩) hInj
  rw [sumAmounts, hcore]
  rw [sumAmounts_filter, sumAmounts_filter, sumAmounts_filter]
  rw [← sum_map_add_sub A]
  refine sum_map_congr_mem A _ _ ?_
  intro a ha
  simp only [decide_eq_true_eq]
  by_cases hchild : ∃ r ∈ R, r.parentIndex = a.index
  · obtain ⟨r, hr, hp⟩ := hchild
    obtain ⟨a', ha', hidx', hblt, hty, haddH, hamt⟩ := hParent r hr
    have haa : a' = a := List.inj_on_of_nodup_map hN ha' ha (by rw [hidx', hp])
    rw [haa] at hblt hty haddH hamt
    have hcont : (R.map (·.parentIndex)).contains a.index = true :=
      (hcontains a.index).mpr ⟨r, hr, hp⟩
    have huniq : ∀ x ∈ R, x.parentIndex = a.index → x = r := by
      intro x hx hpx
      by_contra hxr
      have hsymm : Symmetric (fun r1 r2 : PaymentDescriptor =>
          r1.parentIndex ≠ r2.parentIndex) := fun _ _ hpq => Ne.symm hpq
      exact List.Pairwise.forall hsymm hInj hx hr hxr (hpx.trans hp.symm)
    by_cases hfr : removeHeightFor σ r = 0
    · rw [if_pos ⟨r, hr, hp, hfr⟩,
        if_neg (by rintro ⟨-, -, hcon⟩; rw [hcont] at hcon; simp at hcon),
        if_neg (by rintro ⟨-, -, hcon, -⟩; rw [hcont] at hcon; simp at hcon),
        if_pos ⟨hblt, hty, haddH, by
          rintro ⟨x, hx, hpx, hhx⟩
          rw [huniq x hx hpx] at hhx
          exact hhx hfr⟩]
      ring
    · rw [if_neg (by
          rintro ⟨x, hx, hpx, hfx⟩
          rw [huniq x hx hpx] at hfx
          exact hfr hfx),
        if_neg (by rintro ⟨-, -, hcon⟩; rw [hcont] at hcon; simp at hcon),
        if_neg (by rintro ⟨-, -, hcon, -⟩; rw [hcont] at hcon; simp at hcon),
        if_neg (by rintro ⟨-, -, -, hcon⟩; exact hcon ⟨r, hr, hp, hfr⟩)]
      ring
  · have hncont : ¬ ((R.map (·.parentIndex)).contains a.index = true) := by
      intro hcon
      exact hchild ((hcontains a.index).mp hcon)
    rw [if_neg (by rintro ⟨x, hx, hpx, -⟩; exact hchild ⟨x, hx, hpx⟩)]
    by_cases hactive : a.index < bA ∧ a.entryType = .Add
    · by_cases hz : addHeightFor σ a = 0
      · rw [if_pos ⟨hactive.1, hactive.2, hncont⟩,
          if_pos ⟨hactive.1, hactive.2, hncont, hz⟩,
          if_neg (by rintro ⟨-, -, hcon, -⟩; exact hcon hz)]
        ring
      · rw [if_pos ⟨hactive.1, hactive.2, hncont⟩,
          if_neg (by rintro ⟨-, -, -, hcon⟩; exact hz hcon),
          if_pos ⟨hactive.1, hactive.2, hz, by
            rintro ⟨x, hx, hpx, -⟩
            exact hchild ⟨x, hx, hpx⟩⟩]
        ring
    · rw [if_neg (by rintro ⟨h1, h2, -⟩; exact hactive ⟨h1, h2⟩),
        if_neg (by rintro ⟨h1, h2, -, -⟩; exact hactive ⟨h1, h2⟩),
        if_neg (by rintro ⟨h1, h2, -, -⟩; exact hactive ⟨h1, h2⟩)]
      ring

theorem filter_filter_and (log : List PaymentDescriptor) (p q : PaymentDescriptor → Prop)
    [DecidablePred p] [DecidablePred q] :
    (log.filter (fun e => decide (p e))).filter (fun e => decide (q e)) =
      log.filter (fun e => decide (p e ∧ q e)) := by
  rw [List.filter_filter]
  refine List.filter_congr ?_
  intro x _
  by_cases hp : p x <;> by_cases hq : q x <;> simp [hp, hq]

theorem filter_decide_congr (log : List PaymentDescriptor) (p q : PaymentDescriptor → Prop)
    [DecidablePred p] [DecidablePred q] (h : ∀ e, p e ↔ q e) :
    log.filter (fun e => decide (p e)) = log.filter (fun e => decide (q e)) := by
  refine List.filter_congr ?_
  intro x _
  exact decide_eq_decide.mpr (h x)

/-- The active (in-view) Settle/Timeout entries of a log. -/
def activeRemoves (log : List PaymentDescriptor) (bound : Nat) : List PaymentDescriptor :=
  log.filter (fun r => decide (r.index < bound ∧ r.entryType ≠ .Add))

/-- The amounts of the Add entries already committed on the chain being
built (non-zero addition height), active in the view, and not already
removed from it by an already-applied (stale) Settle/Timeout of the opposite
log.  This is exactly what the seed balances of a consistent chain tip fail
to account for. -/
def committedSum (σ : Bool) (ourLog theirLog : List PaymentDescriptor)
    (bo bt : Nat) : Int :=
  sumAmounts (ourLog.filter (fun a => decide (a.index < bo ∧ a.entryType = .Add ∧
    addHeightFor σ a ≠ 0 ∧
    ¬ ∃ r ∈ activeRemoves theirLog bt,
      r.parentIndex = a.index ∧ removeHeightFor σ r ≠ 0))) +
  sumAmounts (theirLog.filter (fun a => decide (a.index < bt ∧ a.entryType = .Add ∧
    addHeightFor σ a ≠ 0 ∧
    ¬ ∃ r ∈ activeRemoves ourLog bo,
      r.parentIndex = a.index ∧ removeHeightFor σ r ≠ 0)))

theorem evaluateHTLCView_fields (ourLog theirLog : List PaymentDescriptor)
    (bo bt : Nat) (So St : Int) (h : Nat) (σ : Bool) :
    evaluateHTLCView ourLog theirLog bo bt So St h σ =
      { ourLog := (applyAddsToLog (applyRemovesToLog ourLog bo So St h σ true).1 bo
          (skipSet ((theirLog.filter (fun e => e.index < bt)).filter
            (fun e => e.entryType ≠ .Add)) ourLog)
          (applyRemovesToLog theirLog bt (applyRemovesToLog ourLog bo So St h σ true).2.1
            (applyRemovesToLog ourLog bo So St h σ true).2.2 h σ false).2.1
          (applyRemovesToLog theirLog bt (applyRemovesToLog ourLog bo So St h σ true).2.1
            (applyRemovesToLog ourLog bo So St h σ true).2.2 h σ false).2.2 h σ false).1
        theirLog := (applyAddsToLog
          (applyRemovesToLog theirLog bt (applyRemovesToLog ourLog bo So St h σ true).2.1
            (applyRemovesToLog ourLog bo So St h σ true).2.2 h σ false).1 bt
          (skipSet ((ourLog.filter (fun e => e.index < bo)).filter
            (fun e => e.entryType ≠ .Add)) theirLog)
          (applyAddsToLog (applyRemovesToLog ourLog bo So St h σ true).1 bo
            (skipSet ((theirLog.filter (fun e => e.index < bt)).filter
              (fun e => e.entryType ≠ .Add)) ourLog)
            (applyRemovesToLog theirLog bt (applyRemovesToLog ourLog bo So St h σ true).2.1
              (applyRemovesToLog ourLog bo So St h σ true).2.2 h σ false).2.1
            (applyRemovesToLog theirLog bt (applyRemovesToLog ourLog bo So St h σ true).2.1
              (applyRemovesToLog ourLog bo So St h σ true).2.2 h σ false).2.2 h σ false).2.1
          (applyAddsToLog (applyRemovesToLog ourLog bo So St h σ true).1 bo
            (skipSet ((theirLog.filter (fun e => e.index < bt)).filter
              (fun e => e.entryType ≠ .Add)) ourLog)
            (applyRemovesToLog theirLog bt (applyRemovesToLog ourLog bo So St h σ true).2.1
              (applyRemovesToLog ourLog bo So St h σ true).2.2 h σ false).2.1
            (applyRemovesToLog theirLog bt (applyRemovesToLog ourLog bo So St h σ true).2.1
              (applyRemovesToLog ourLog bo So St h σ true).2.2 h σ false).2.2
            h σ false).2.2.1 h σ true).1
        ourBalance := (applyAddsToLog
          (applyRemovesToLog theirLog bt (applyRemovesToLog ourLog bo So St h σ true).2.1
            (applyRemovesToLog ourLog bo So St h σ true).2.2 h σ false).1 bt
          (skipSet ((ourLog.filter (fun e => e.index < bo)).filter
            (fun e => e.entryType ≠ .Add)) theirLog)
          (applyAddsToLog (applyRemovesToLog ourLog bo So St h σ true).1 bo
            (skipSet ((theirLog.filter (fun e => e.index < bt)).filter
              (fun e => e.entryType ≠ .Add)) ourLog)
            (applyRemovesToLog theirLog bt (applyRemovesToLog ourLog bo So St h σ true).2.1
              (applyRemovesToLog ourLog bo So St h σ true).2.2 h σ false).2.1
            (applyRemovesToLog theirLog bt (applyRemovesToLog ourLog bo So St h σ true).2.1
              (applyRemovesToLog ourLog bo So St h σ true).2.2 h σ false).2.2 h σ false).2.1
          (applyAddsToLog (applyRemovesToLog ourLog bo So St h σ true).1 bo
            (skipSet ((theirLog.filter (fun e => e.index < bt)).filter
              (fun e => e.entryType ≠ .Add)) ourLog)
            (applyRemovesToLog theirLog bt (applyRemovesToLog ourLog bo So St h σ true).2.1
              (applyRemovesToLog ourLog bo So St h σ true).2.2 h σ false).2.1
            (applyRemovesToLog theirLog bt (applyRemovesToLog ourLog bo So St h σ true).2.1
              (applyRemovesToLog ourLog bo So St h σ true).2.2 h σ false).2.2
            h σ false).2.2.1 h σ true).2.1
        theirBalance := (applyAddsToLog
          (applyRemovesToLog theirLog bt (applyRemovesToLog ourLog bo So St h σ true).2.1
            (applyRemovesToLog ourLog bo So St h σ true).2.2 h σ false).1 bt
          (skipSet ((ourLog.filter (fun e => e.index < bo)).filter
            (fun e => e.entryType ≠ .Add)) theirLog)
          (applyAddsToLog (applyRemovesToLog ourLog bo So St h σ true).1 bo
            (skipSet ((theirLog.filter (fun e => e.index < bt)).filter
              (fun e => e.entryType ≠ .Add)) ourLog)
            (applyRemovesToLog theirLog bt (applyRemovesToLog ourLog bo So St h σ true).2.1
              (applyRemovesToLog ourLog bo So St h σ true).2.2 h σ false).2.1
            (applyRemovesToLog theirLog bt (applyRemovesToLog ourLog bo So St h σ true).2.1
              (applyRemovesToLog ourLog bo So St h σ true).2.2 h σ false).2.2 h σ false).2.1
          (applyAddsToLog (applyRemovesToLog ourLog bo So St h σ true).1 bo
            (skipSet ((theirLog.filter (fun e => e.index < bt)).filter
              (fun e => e.entryType ≠ .Add)) ourLog)
            (applyRemovesToLog theirLog bt (applyRemovesToLog ourLog bo So St h σ true).2.1
              (applyRemovesToLog ourLog bo So St h σ true).2.2 h σ false).2.1
            (applyRemovesToLog theirLog bt (applyRemovesToLog ourLog bo So St h σ true).2.1
              (applyRemovesToLog ourLog bo So St h σ true).2.2 h σ false).2.2
            h σ false).2.2.1 h σ true).2.2.1
        viewOur := (applyAddsToLog (applyRemovesToLog ourLog bo So St h σ true).1 bo
          (skipSet ((theirLog.filter (fun e => e.index < bt)).filter
            (fun e => e.entryType ≠ .Add)) ourLog)
          (applyRemovesToLog theirLog bt (applyRemovesToLog ourLog bo So St h σ true).2.1
            (applyRemovesToLog ourLog bo So St h σ true).2.2 h σ false).2.1
          (applyRemovesToLog theirLog bt (applyRemovesToLog ourLog bo So St h σ true).2.1
            (applyRemovesToLog ourLog bo So St h σ true).2.2 h σ false).2.2 h σ false).2.2.2
        viewTheir := (applyAddsToLog
          (applyRemovesToLog theirLog bt (applyRemovesToLog ourLog bo So St h σ true).2.1
            (applyRemovesToLog ourLog bo So St h σ true).2.2 h σ false).1 bt
          (skipSet ((ourLog.filter (fun e => e.index < bo)).filter
            (fun e => e.entryType ≠ .Add)) theirLog)
          (applyAddsToLog (applyRemovesToLog ourLog bo So St h σ true).1 bo
            (skipSet ((theirLog.filter (fun e => e.index < bt)).filter
              (fun e => e.entryType ≠ .Add)) ourLog)
            (applyRemovesToLog theirLog bt (applyRemovesToLog ourLog bo So St h σ true).2.1
              (applyRemovesToLog ourLog bo So St h σ true).2.2 h σ false).2.1
            (applyRemovesToLog theirLog bt (applyRemovesToLog ourLog bo So St h σ true).2.1
              (applyRemovesToLog ourLog bo So St h σ true).2.2 h σ false).2.2 h σ false).2.1
          (applyAddsToLog (applyRemovesToLog ourLog bo So St h σ true).1 bo
            (skipSet ((theirLog.filter (fun e => e.index < bt)).filter
              (fun e => e.entryType ≠ .Add)) ourLog)
            (applyRemovesToLog theirLog bt (applyRemovesToLog ourLog bo So St h σ true).2.1
              (applyRemovesToLog ourLog bo So St h σ true).2.2 h σ false).2.1
            (applyRemovesToLog theirLog bt (applyRemovesToLog ourLog bo So St h σ true).2.1
              (applyRemovesToLog ourLog bo So St h σ true).2.2 h σ false).2.2
            h σ false).2.2.1 h σ true).2.2.2 } := rfl

theorem filter_remfresh (log : List PaymentDescriptor) (bound : Nat) (σ : Bool) :
    log.filter (fun e => decide (e.index < bound ∧ e.entryType ≠ .Add ∧
      removeHeightFor σ e = 0)) =
    (activeRemoves log bound).filter (fun r => decide (removeHeightFor σ r = 0)) := by
  unfold activeRemoves
  rw [filter_filter_and log (fun r => r.index < bound ∧ r.entryType ≠ .Add)
    (fun r => removeHeightFor σ r = 0)]
  exact filter_decide_congr log _ _ (fun e => by tauto)

theorem pdKey_view_congr (σ : Bool) (b : Nat) (skip : List Nat) (x y : PaymentDescriptor)
    (hk : pdKey σ x = pdKey σ y) :
    (fun e : PaymentDescriptor => decide (e.index < b ∧ e.entryType = .Add ∧
      ¬ skip.contains e.index)) x =
    (fun e : PaymentDescriptor => decide (e.index < b ∧ e.entryType = .Add ∧
      ¬ skip.contains e.index)) y := by
  have h1 : x.index = y.index := congrArg (fun k => k.1) hk
  have h2 : x.entryType = y.entryType := congrArg (fun k => k.2.1) hk
  simp only [h1, h2]

theorem pdKey_debit_congr (σ : Bool) (b : Nat) (skip : List Nat) (x y : PaymentDescriptor)
    (hk : pdKey σ x = pdKey σ y) :
    (fun e : PaymentDescriptor => decide (e.index < b ∧ e.entryType = .Add ∧
      ¬ skip.contains e.index ∧ addHeightFor σ e = 0)) x =
    (fun e : PaymentDescriptor => decide (e.index < b ∧ e.entryType = .Add ∧
      ¬ skip.contains e.index ∧ addHeightFor σ e = 0)) y := by
  have h1 : x.index = y.index := congrArg (fun k => k.1) hk
  have h2 : x.entryType = y.entryType := congrArg (fun k => k.2.1) hk
  have h3 : addHeightFor σ x = addHeightFor σ y := congrArg (fun k => k.2.2.1) hk
  simp only [h1, h2, h3]

/-- C1 core: balance conservation of one HTLC-view evaluation.  If every
active Settle/Timeout has an active Add parent in the opposite log, already
committed on the chain being built and carrying the same amount, if log
indices are unique and active removes target pairwise-distinct parents,
then the evaluated balances plus the amounts of the filtered view equal the
seed balances plus the committed-but-unremoved amounts. -/
theorem evaluateHTLCView_conservation
    (σ : Bool) (ourLog theirLog : List PaymentDescriptor) (bo bt : Nat)
    (So St : Int) (h : Nat)
    (hNo : (ourLog.map (·.index)).Nodup)
    (hNt : (theirLog.map (·.index)).Nodup)
    (hPo : ∀ r ∈ ourLog, r.index < bo → r.entryType ≠ .Add →
      ∃ a, logLookup theirLog r.parentIndex = some a ∧ a.index < bt ∧
        a.entryType = .Add ∧ addHeightFor σ a ≠ 0 ∧ a.amount = r.amount)
    (hPt : ∀ r ∈ theirLog, r.index < bt → r.entryType ≠ .Add →
      ∃ a, logLookup ourLog r.parentIndex = some a ∧ a.index < bo ∧
        a.entryType = .Add ∧ addHeightFor σ a ≠ 0 ∧ a.amount = r.amount)
    (hIo : (activeRemoves ourLog bo).Pairwise
      (fun r1 r2 => r1.parentIndex ≠ r2.parentIndex))
    (hIt : (activeRemoves theirLog bt).Pairwise
      (fun r1 r2 => r1.parentIndex ≠ r2.parentIndex)) :
    (evaluateHTLCView ourLog theirLog bo bt So St h σ).ourBalance +
      (evaluateHTLCView ourLog theirLog bo bt So St h σ).theirBalance +
      sumAmounts (evaluateHTLCView ourLog theirLog bo bt So St h σ).viewOur +
      sumAmounts (evaluateHTLCView ourLog theirLog bo bt So St h σ).viewTheir =
      So + St + committedSum σ ourLog theirLog bo bt := by
  rw [evaluateHTLCView_fields]
  dsimp only
  set p1o := applyRemovesToLog ourLog bo So St h σ true with hp1o
  set p1t := applyRemovesToLog theirLog bt p1o.2.1 p1o.2.2 h σ false with hp1t
  set sU := skipSet ((theirLog.filter (fun e => e.index < bt)).filter
    (fun e => e.entryType ≠ .Add)) ourLog with hsU
  set sT := skipSet ((ourLog.filter (fun e => e.index < bo)).filter
    (fun e => e.entryType ≠ .Add)) theirLog with hsT
  set p2o := applyAddsToLog p1o.1 bo sU p1t.2.1 p1t.2.2 h σ false with hp2o
  set p2t := applyAddsToLog p1t.1 bt sT p2o.2.1 p2o.2.2.1 h σ true with hp2t
  -- the skip sets are the parent indices of the active removes
  have hskipU : sU = (activeRemoves theirLog bt).map (·.parentIndex) := by
    rw [hsU, filter_filter_and theirLog (fun e => e.index < bt)
      (fun e => e.entryType ≠ .Add)]
    refine skipSet_eq _ _ ?_
    intro r hr
    have hr' := List.mem_filter.mp hr
    rw [decide_eq_true_eq] at hr'
    obtain ⟨a, ha, -⟩ := hPt r hr'.1 hr'.2.1 hr'.2.2
    rw [ha]
    rfl
  have hskipT : sT = (activeRemoves ourLog bo).map (·.parentIndex) := by
    rw [hsT, filter_filter_and ourLog (fun e => e.index < bo)
      (fun e => e.entryType ≠ .Add)]
    refine skipSet_eq _ _ ?_
    intro r hr
    have hr' := List.mem_filter.mp hr
    rw [decide_eq_true_eq] at hr'
    obtain ⟨a, ha, -⟩ := hPo r hr'.1 hr'.2.1 hr'.2.2
    rw [ha]
    rfl
  -- the balance bookkeeping of the four passes
  have credO := applyRemovesToLog_balanceSum ourLog bo So St h σ true
  rw [← hp1o] at credO
  have credT := applyRemovesToLog_balanceSum theirLog bt p1o.2.1 p1o.2.2 h σ false
  rw [← hp1t] at credT
  have debO := applyAddsToLog_balanceSum p1o.1 bo sU p1t.2.1 p1t.2.2 h σ false
  rw [← hp2o] at debO
  have debT := applyAddsToLog_balanceSum p1t.1 bt sT p2o.2.1 p2o.2.2.1 h σ true
  rw [← hp2t] at debT
  have viewO := applyAddsToLog_view_amounts p1o.1 bo sU p1t.2.1 p1t.2.2 h σ false
  rw [← hp2o] at viewO
  have viewT := applyAddsToLog_view_amounts p1t.1 bt sT p2o.2.1 p2o.2.2.1 h σ true
  rw [← hp2t] at viewT
  -- transfer the Add-pass sums from the rebuilt logs to the original logs
  have keyO := applyRemovesToLog_key ourLog bo So St h σ true
  rw [← hp1o] at keyO
  have keyT := applyRemovesToLog_key theirLog bt p1o.2.1 p1o.2.2 h σ false
  rw [← hp1t] at keyT
  have debO' : sumAmounts (p1o.1.filter (fun e => decide (e.index < bo ∧
      e.entryType = .Add ∧ ¬ sU.contains e.index ∧ addHeightFor σ e = 0))) =
      sumAmounts (ourLog.filter (fun e => decide (e.index < bo ∧
      e.entryType = .Add ∧ ¬ sU.contains e.index ∧ addHeightFor σ e = 0))) := by
    unfold sumAmounts
    exact congrArg List.sum (transfer_filter_amounts σ _
      (pdKey_debit_congr σ bo sU) p1o.1 ourLog keyO)
  have debT' : sumAmounts (p1t.1.filter (fun e => decide (e.index < bt ∧
      e.entryType = .Add ∧ ¬ sT.contains e.index ∧ addHeightFor σ e = 0))) =
      sumAmounts (theirLog.filter (fun e => decide (e.index < bt ∧
      e.entryType = .Add ∧ ¬ sT.contains e.index ∧ addHeightFor σ e = 0))) := by
    unfold sumAmounts
    exact congrArg List.sum (transfer_filter_amounts σ _
      (pdKey_debit_congr σ bt sT) p1t.1 theirLog keyT)
  have viewO' : sumAmounts p2o.2.2.2 =
      sumAmounts (ourLog.filter (fun e => decide (e.index < bo ∧
      e.entryType = .Add ∧ ¬ sU.contains e.index))) := by
    unfold sumAmounts
    rw [viewO]
    exact congrArg List.sum (transfer_filter_amounts σ _
      (pdKey_view_congr σ bo sU) p1o.1 ourLog keyO)
  have viewT' : sumAmounts p2t.2.2.2 =
      sumAmounts (theirLog.filter (fun e => decide (e.index < bt ∧
      e.entryType = .Add ∧ ¬ sT.contains e.index))) := by
    unfold sumAmounts
    rw [viewT]
    exact congrArg List.sum (transfer_filter_amounts σ _
      (pdKey_view_congr σ bt sT) p1t.1 theirLog keyT)
  rw [debO'] at debO
  rw [debT'] at debT
  rw [hskipU] at debO viewO'
  rw [hskipT] at debT viewT'
  rw [filter_remfresh ourLog bo σ] at credO
  rw [filter_remfresh theirLog bt σ] at credT
  -- the two pairing identities
  have side1 := side_identity σ bo ourLog (activeRemoves theirLog bt) hNo
    (by
      intro r hr
      have hr' := List.mem_filter.mp hr
      rw [decide_eq_true_eq] at hr'
      obtain ⟨a, ha, h2, h3, h4, h5⟩ := hPt r hr'.1 hr'.2.1 hr'.2.2
      refine ⟨a, List.mem_of_find?_eq_some ha, ?_, h2, h3, h4, h5⟩
      have := List.find?_some ha
      simpa using this) hIt
  have side2 := side_identity σ bt theirLog (activeRemoves ourLog bo) hNt
    (by
      intro r hr
      have hr' := List.mem_filter.mp hr
      rw [decide_eq_true_eq] at hr'
      obtain ⟨a, ha, h2, h3, h4, h5⟩ := hPo r hr'.1 hr'.2.1 hr'.2.2
      refine ⟨a, List.mem_of_find?_eq_some ha, ?_, h2, h3, h4, h5⟩
      have := List.find?_some ha
      simpa using this) hIo
  rw [committedSum, viewO', viewT']
  linarith [credO, credT, debO, debT, side1, side2]

/-- C1 (amended): balance conservation for a commitment view built by
`fetchCommitmentView` (hence by `SignNextCommitment` and
`ReceiveNewCommitment`).  For a well-formed state — unique log indices,
every active Settle/Timeout having an active Add parent of equal amount in
the opposite log already committed on the chain being built, active removes
targeting distinct parents — whose seed tip accounts for the capacity minus
the committed-but-unremoved Add amounts, the constructed commitment's
balances plus the amounts of all HTLC entries in the filtered view equal
the channel capacity.  The unamended claim, which assumes only that the
settled balances sum to the capacity, fails for views whose log bounds
regress below the tip's (see the counterexample). -/
theorem fetchCommitmentView_conservation (lc : LightningChannel) (σ : Bool)
    (bo bt : Nat) (cv tip : Commitment) (ev : EvalOut)
    (htip : (if σ then lc.remoteCommitChain else lc.localCommitChain).getLast? = some tip)
    (hNo : (lc.ourUpdateLog.map (·.index)).Nodup)
    (hNt : (lc.theirUpdateLog.map (·.index)).Nodup)
    (hPo : ∀ r ∈ lc.ourUpdateLog, r.index < bo → r.entryType ≠ .Add →
      ∃ a, logLookup lc.theirUpdateLog r.parentIndex = some a ∧ a.index < bt ∧
        a.entryType = .Add ∧ addHeightFor σ a ≠ 0 ∧ a.amount = r.amount)
    (hPt : ∀ r ∈ lc.theirUpdateLog, r.index < bt → r.entryType ≠ .Add →
      ∃ a, logLookup lc.ourUpdateLog r.parentIndex = some a ∧ a.index < bo ∧
        a.entryType = .Add ∧ addHeightFor σ a ≠ 0 ∧ a.amount = r.amount)
    (hIo : (activeRemoves lc.ourUpdateLog bo).Pairwise
      (fun r1 r2 => r1.parentIndex ≠ r2.parentIndex))
    (hIt : (activeRemoves lc.theirUpdateLog bt).Pairwise
      (fun r1 r2 => r1.parentIndex ≠ r2.parentIndex))
    (hseed : tip.ourBalance + tip.theirBalance +
      committedSum σ lc.ourUpdateLog lc.theirUpdateLog bo bt = lc.channelState.capacity)
    (hf : fetchCommitmentView lc σ bo bt = some (cv, ev)) :
    cv.ourBalance + cv.theirBalance +
      sumAmounts ev.viewOur + sumAmounts ev.viewTheir = lc.channelState.capacity := by
  obtain ⟨tip', htip', hev, hcv⟩ := fetchCommitmentView_some hf
  rw [htip] at htip'
  obtain rfl := Option.some.inj htip'
  rw [hcv]
  dsimp only
  rw [hev]
  have hc := evaluateHTLCView_conservation σ lc.ourUpdateLog lc.theirUpdateLog bo bt
    tip.ourBalance tip.theirBalance (tip.height + 1) hNo hNt hPo hPt hIo hIt
  linarith [hc, hseed]

/-- C1 counterexample: on a fresh channel with capacity 100 and settled
balances (100, 0), add an HTLC of 50 and accept a remote commitment
covering it (`ReceiveNewCommitment` at our log index 1); the settled
balances still sum to the capacity, yet the view that
`ReceiveNewCommitment` builds when invoked with our log index 0 — exactly
the `fetchCommitmentView lc false 0 theirLogCounter` call it performs —
carries balances and pending HTLCs summing to 50, not 100, and the
commitment it appends to the local chain records those balances. -/
theorem balance_conservation_counterexample :
    (runOps cryptoW (newLightningChannel stW)
        [ChanOp.add { redemptionHash := 9, expiry := 10, amount := 50 },
         ChanOp.receiveNew true true 1]).channelState.ourBalance +
      (runOps cryptoW (newLightningChannel stW)
        [ChanOp.add { redemptionHash := 9, expiry := 10, amount := 50 },
         ChanOp.receiveNew true true 1]).channelState.theirBalance =
      (runOps cryptoW (newLightningChannel stW)
        [ChanOp.add { redemptionHash := 9, expiry := 10, amount := 50 },
         ChanOp.receiveNew true true 1]).channelState.capacity ∧
    (fetchCommitmentView (runOps cryptoW (newLightningChannel stW)
        [ChanOp.add { redemptionHash := 9, expiry := 10, amount := 50 },
         ChanOp.receiveNew true true 1]) false 0
        (runOps cryptoW (newLightningChannel stW)
        [ChanOp.add { redemptionHash := 9, expiry := 10, amount := 50 },
         ChanOp.receiveNew true true 1]).theirLogCounter).map
      (fun p => p.1.ourBalance + p.1.theirBalance +
        sumAmounts p.2.viewOur + sumAmounts p.2.viewTheir) = some 50 ∧
    (runOps cryptoW (newLightningChannel stW)
        [ChanOp.add { redemptionHash := 9, expiry := 10, amount := 50 },
         ChanOp.receiveNew true true 1]).channelState.capacity = 100 := by
  refine ⟨by decide, by decide, by decide⟩

/-- A channel holding one not-yet-committed outgoing HTLC of 50, used to
instantiate the conservation theorem. -/
def lcConsW : LightningChannel :=
  (addHTLC (newLightningChannel stW) { redemptionHash := 9, expiry := 10, amount := 50 }).1

theorem fetchCommitmentView_conservation_witness :
    (fetchCommitmentView lcConsW true 1 0).map
      (fun p => p.1.ourBalance + p.1.theirBalance +
        sumAmounts p.2.viewOur + sumAmounts p.2.viewTheir) =
      some lcConsW.channelState.capacity := by
  have hf : fetchCommitmentView lcConsW true 1 0 =
      some ({ height := 1, ourMessageIndex := 1, theirMessageIndex := 0,
              ourBalance := 50, theirBalance := 0 },
            { ourLog := [{ freshAdd { redemptionHash := 9, expiry := 10, amount := 50 } 0
                  with addCommitHeightRemote := 1 }]
              theirLog := []
              ourBalance := 50, theirBalance := 0
              viewOur := [{ freshAdd { redemptionHash := 9, expiry := 10, amount := 50 } 0
                  with addCommitHeightRemote := 1 }]
              viewTheir := [] }) := by decide
  have h := fetchCommitmentView_conservation lcConsW true 1 0
    { height := 1, ourMessageIndex := 1, theirMessageIndex := 0,
      ourBalance := 50, theirBalance := 0 }
    { height := 0, ourMessageIndex := 0, theirMessageIndex := 0,
      ourBalance := 100, theirBalance := 0 }
    { ourLog := [{ freshAdd { redemptionHash := 9, expiry := 10, amount := 50 } 0
          with addCommitHeightRemote := 1 }]
      theirLog := []
      ourBalance := 50, theirBalance := 0
      viewOur := [{ freshAdd { redemptionHash := 9, expiry := 10, amount := 50 } 0
          with addCommitHeightRemote := 1 }]
      viewTheir := [] }
    (by decide) (by decide) (by decide)
    (by
      intro r hr _ hne
      have hfa : r = freshAdd { redemptionHash := 9, expiry := 10, amount := 50 } 0 := by
        simpa [lcConsW, addHTLC, newLightningChannel] using hr
      rw [hfa] at hne
      exact absurd rfl hne)
    (by
      intro r hr
      exact absurd hr (by simp [lcConsW, addHTLC, newLightningChannel]))
    (by decide) (by decide) (by decide) hf
  rw [hf]
  simp only [Option.map_some']
  rw [h]

end LndCC
